import Mathlib

/-!
Shallow embedding of the GAPR list library (src/src/list.cpp): a circular
doubly-linked list with a sentinel header node, a stateful cursor
("window" plus 1-based "index"), a Stack built on top of it, and the
list2vector conversion utility.

Nodes live in an explicit heap: node identifiers are natural numbers and
the heap stores, for every identifier, its next link, its prev link and
its stored value.  The boxed payload (gObject / gInt) is modelled by an
arbitrary type alpha; the NULL pointer returned for "absent" values is
modelled by Option.none, and a node holding a user value holds some v.
The C++ int fields _index and _length are modelled as Int.
-/

/-- Heap of list nodes: next / prev links and stored value per node id,
together with an allocation counter (all live ids are below alloc). -/
structure Heap (α : Type) where
  nxt : Nat → Nat
  prv : Nat → Nat
  val : Nat → Option α
  alloc : Nat

/-- Write the next-link of node x. -/
def setNxt {α : Type} (h : Heap α) (x y : Nat) : Heap α :=
  { h with nxt := fun z => if z = x then y else h.nxt z }

/-- Write the prev-link of node x. -/
def setPrv {α : Type} (h : Heap α) (x y : Nat) : Heap α :=
  { h with prv := fun z => if z = x then y else h.prv z }

/-- Write the value stored at node x. -/
def setVal {α : Type} (h : Heap α) (x : Nat) (v : Option α) : Heap α :=
  { h with val := fun z => if z = x then v else h.val z }

/-- ListNode constructor: `_val=val; _next=_prev=this;` — allocates a fresh
node that is a singleton ring holding v, returns the new heap and the id. -/
def allocNode {α : Type} (h : Heap α) (v : Option α) : Heap α × Nat :=
  (⟨fun z => if z = h.alloc then h.alloc else h.nxt z,
    fun z => if z = h.alloc then h.alloc else h.prv z,
    fun z => if z = h.alloc then v else h.val z,
    h.alloc + 1⟩, h.alloc)

/-- ListNode::insert: splice node b into the ring immediately after a
(`c=_next; b->_next=c; b->_prev=this; _next=b; c->_prev=b;`). -/
def ListNode.insert {α : Type} (h : Heap α) (a b : Nat) : Heap α :=
  let c := h.nxt a
  setPrv (setNxt (setPrv (setNxt h b c) b a) a b) c b

/-- ListNode::remove: unlink a from its ring and make it a singleton
(`_prev->_next=_next; _next->_prev=_prev; _next=_prev=this;`), with each
field read from the heap current at that statement. -/
def ListNode.remove {α : Type} (h : Heap α) (a : Nat) : Heap α :=
  let h1 := setNxt h (h.prv a) (h.nxt a)
  let h2 := setPrv h1 (h1.nxt a) (h1.prv a)
  setPrv (setNxt h2 a a) a a

/-- ListNode::splice: merge the ring after b into the ring after a
(`an=a->_next; bn=b->_next; a->_next=bn; b->_next=an; an->_prev=b;
bn->_prev=a;`). -/
def ListNode.splice {α : Type} (h : Heap α) (a b : Nat) : Heap α :=
  let an := h.nxt a
  let bn := h.nxt b
  setPrv (setPrv (setNxt (setNxt h a bn) b an) an b) bn a

/-- List state: sentinel header id, window (cursor) id, 1-based cursor
index (0 means the window rests on the header) and element count, the two
ints exactly as in the C++ fields _index and _length. -/
structure ListSt where
  header : Nat
  win : Nat
  index : Int
  length : Int

/-- List::List(): `_index=0; _length=0; header=new ListNode(); win=header;`. -/
def mkList {α : Type} (h : Heap α) : Heap α × ListSt :=
  let p := allocNode h none
  (p.1, ⟨p.2, p.2, 0, 0⟩)

/-- List::insert: `win->insert(new ListNode(val)); ++_length; return val;`.
The returned value is the argument itself, so only the state is returned. -/
def ListSt.insert {α : Type} (h : Heap α) (s : ListSt) (v : α) : Heap α × ListSt :=
  let p := allocNode h (some v)
  (ListNode.insert p.1 s.win p.2, { s with length := s.length + 1 })

/-- List::prepend: `header->insert(new ListNode(val)); ++_length;
if(_index>0) _index++; return val;`. -/
def ListSt.prepend {α : Type} (h : Heap α) (s : ListSt) (v : α) : Heap α × ListSt :=
  let p := allocNode h (some v)
  (ListNode.insert p.1 s.header p.2,
   { s with length := s.length + 1,
            index := if 0 < s.index then s.index + 1 else s.index })

/-- List::append(gObject*): `header->prev()->insert(new ListNode(val));
++_length; return val;`. -/
def ListSt.append {α : Type} (h : Heap α) (s : ListSt) (v : α) : Heap α × ListSt :=
  let p := allocNode h (some v)
  (ListNode.insert p.1 (p.1.prv s.header) p.2, { s with length := s.length + 1 })

/-- List::append(List*): `a=header->prev(); a->splice(l->header);
_length+=l->_length; l->header->remove(); l->_length=0; l->win=l->header;
return this;`.  Returns the heap, the updated self and the emptied other. -/
def ListSt.appendList {α : Type} (h : Heap α) (s l : ListSt) :
    Heap α × ListSt × ListSt :=
  let a := h.prv s.header
  let h1 := ListNode.splice h a l.header
  let h2 := ListNode.remove h1 l.header
  (h2, { s with length := s.length + l.length },
   { l with length := 0, win := l.header })

/-- List::remove: fails with NULL when `win == header`; otherwise captures
the value, moves the window one step back, unlinks and destroys the node
after the moved window, and decrements _length and _index. -/
def ListSt.remove {α : Type} (h : Heap α) (s : ListSt) :
    Option α × Heap α × ListSt :=
  if s.win = s.header then (none, h, s)
  else
    let v := h.val s.win
    let w := h.prv s.win
    let h1 := ListNode.remove h (h.nxt w)
    (v, h1, { s with win := w, index := s.index - 1, length := s.length - 1 })

/-- List::val(gObject*): replaces the window value and returns the old one
when `win != header`; otherwise returns NULL and changes nothing. -/
def ListSt.valPut {α : Type} (h : Heap α) (s : ListSt) (v : α) :
    Option α × Heap α × ListSt :=
  if s.win = s.header then (none, h, s)
  else (h.val s.win, setVal h s.win (some v), s)

/-- List::val(): `return win->_val;`. -/
def ListSt.val {α : Type} (h : Heap α) (s : ListSt) : Option α :=
  h.val s.win

/-- List::GetAt: guard `(_pt < 1) || (_pt > _length)` then walk the window
one link at a time towards the requested absolute 1-based position, in the
direction given by comparing _pt with _index, finally setting _index. -/
def ListSt.GetAt {α : Type} (h : Heap α) (s : ListSt) (pt : Int) :
    Option α × Heap α × ListSt :=
  if pt < 1 ∨ s.length < pt then (none, h, s)
  else if pt < s.index then
    let w := (fun x => h.prv x)^[(s.index - pt).toNat] s.win
    (h.val w, h, { s with win := w, index := pt })
  else if s.index < pt then
    let w := (fun x => h.nxt x)^[(pt - s.index).toNat] s.win
    (h.val w, h, { s with win := w, index := pt })
  else (h.val s.win, h, s)

/-- List::next: `win=win->next(); _index++; if(_index>_length) _index=0;
return win->_val;`. -/
def ListSt.next {α : Type} (h : Heap α) (s : ListSt) :
    Option α × Heap α × ListSt :=
  let w := h.nxt s.win
  let i := s.index + 1
  (h.val w, h, { s with win := w, index := if s.length < i then 0 else i })

/-- List::prev: `win=win->prev(); --_index; if(_index<0)
_index=_length+_index+1; return win->_val;`. -/
def ListSt.prev {α : Type} (h : Heap α) (s : ListSt) :
    Option α × Heap α × ListSt :=
  let w := h.prv s.win
  let i := s.index - 1
  (h.val w, h, { s with win := w, index := if i < 0 then s.length + i + 1 else i })

/-- List::first: `win=header->next(); _index=1; return win->_val;`. -/
def ListSt.first {α : Type} (h : Heap α) (s : ListSt) :
    Option α × Heap α × ListSt :=
  let w := h.nxt s.header
  (h.val w, h, { s with win := w, index := 1 })

/-- List::last: `win=header->prev(); _index=_length; return win->_val;`. -/
def ListSt.last {α : Type} (h : Heap α) (s : ListSt) :
    Option α × Heap α × ListSt :=
  let w := h.prv s.header
  (h.val w, h, { s with win := w, index := s.length })

/-- List::isHead: `return (win==header);`. -/
def ListSt.isHead (s : ListSt) : Bool :=
  s.win = s.header

/-- Stack::push: `s.prepend(v);`. -/
def Stack.push {α : Type} (h : Heap α) (s : ListSt) (v : α) : Heap α × ListSt :=
  ListSt.prepend h s v

/-- Stack::pop: `s.first(); return s.remove();`. -/
def Stack.pop {α : Type} (h : Heap α) (s : ListSt) : Option α × Heap α × ListSt :=
  let p := ListSt.first h s
  ListSt.remove p.2.1 p.2.2

/-- Stack::size: `return s.length();`. -/
def Stack.size (s : ListSt) : Int :=
  s.length

/-- Stack::top: `return s.first();`. -/
def Stack.top {α : Type} (h : Heap α) (s : ListSt) : Option α × Heap α × ListSt :=
  ListSt.first h s

/-- Stack::nextToTop: `s.first(); return s.next();`. -/
def Stack.nextToTop {α : Type} (h : Heap α) (s : ListSt) :
    Option α × Heap α × ListSt :=
  let p := ListSt.first h s
  ListSt.next p.2.1 p.2.2

/-- Stack::bottom: `return s.last();`. -/
def Stack.bottom {α : Type} (h : Heap α) (s : ListSt) : Option α × Heap α × ListSt :=
  ListSt.last h s

/-- Loop body of list2vector iterated k times:
`out[i]=((gInt*) list->val())->data; list->next();`.  The 1-based output
array produced by ivector1_2 is modelled as the Lean list of the written
cells in order (array entry i is list entry i-1). -/
def l2vLoop (k : Nat) (h : Heap Int) (s : ListSt) : List Int × Heap Int × ListSt :=
  match k with
  | 0 => ([], h, s)
  | Nat.succ k =>
    let x := (ListSt.val h s).getD 0
    let p := ListSt.next h s
    let q := l2vLoop k p.2.1 p.2.2
    (x :: q.1, q.2.1, q.2.2)

/-- list2vector: `n=list->length(); out=ivector1_2(n); list->first();
for(i=1;i<=n;i++){ out[i]=((gInt*) list->val())->data; list->next(); }`. -/
def list2vector (h : Heap Int) (s : ListSt) : List Int × Heap Int × ListSt :=
  let n := s.length.toNat
  let p := ListSt.first h s
  l2vLoop n p.2.1 p.2.2

/-- Public single-list operations of List, used to state invariant
preservation over arbitrary call sequences. -/
inductive Op (α : Type) where
  | insert (v : α)
  | prepend (v : α)
  | append (v : α)
  | remove
  | valPut (v : α)
  | valGet
  | getAt (p : Int)
  | next
  | prev
  | first
  | last

/-- State effect of one public operation (return values discarded). -/
def applyOp {α : Type} (op : Op α) (hs : Heap α × ListSt) : Heap α × ListSt :=
  match op with
  | .insert v => ListSt.insert hs.1 hs.2 v
  | .prepend v => ListSt.prepend hs.1 hs.2 v
  | .append v => ListSt.append hs.1 hs.2 v
  | .remove => (ListSt.remove hs.1 hs.2).2
  | .valPut v => (ListSt.valPut hs.1 hs.2 v).2
  | .valGet => hs
  | .getAt p => (ListSt.GetAt hs.1 hs.2 p).2
  | .next => (ListSt.next hs.1 hs.2).2
  | .prev => (ListSt.prev hs.1 hs.2).2
  | .first => (ListSt.first hs.1 hs.2).2
  | .last => (ListSt.last hs.1 hs.2).2

/-- State effect of a sequence of public operations, first op first. -/
def applyOps {α : Type} (ops : List (Op α)) (hs : Heap α × ListSt) :
    Heap α × ListSt :=
  ops.foldl (fun st op => applyOp op st) hs

/-- Abstract effect of one operation on the zipper view of the contents:
the pair (a, b) stands for the element sequence a ++ b with the cursor on
the last element of a (on the header when a is empty). -/
def stepA {α : Type} [DecidableEq α] (op : Op α) (z : List α × List α) :
    List α × List α :=
  match op with
  | .insert v => (z.1, v :: z.2)
  | .prepend v => if z.1 = [] then ([], v :: z.2) else (v :: z.1, z.2)
  | .append v => (z.1, z.2 ++ [v])
  | .remove => (z.1.dropLast, z.2)
  | .valPut v => if z.1 = [] then z else (z.1.dropLast ++ [v], z.2)
  | .valGet => z
  | .getAt p =>
    if p < 1 ∨ ((z.1 ++ z.2).length : Int) < p then z
    else ((z.1 ++ z.2).take p.toNat, (z.1 ++ z.2).drop p.toNat)
  | .next =>
    match z.2 with
    | [] => ([], z.1)
    | d :: r => (z.1 ++ [d], r)
  | .prev =>
    match z.1.getLast? with
    | some x => (z.1.dropLast, x :: z.2)
    | none => (z.2, [])
  | .first =>
    match z.1 ++ z.2 with
    | [] => ([], [])
    | d :: r => ([d], r)
  | .last => (z.1 ++ z.2, [])

/-- Abstract effect of a sequence of operations. -/
def stepsA {α : Type} [DecidableEq α] (ops : List (Op α)) (z : List α × List α) :
    List α × List α :=
  ops.foldl (fun z op => stepA op z) z

/-- Side condition under which an operation keeps the cursor invariant:
only first() on an empty list breaks it. -/
def okOp {α : Type} (op : Op α) (z : List α × List α) : Prop :=
  match op with
  | .first => z.1 ++ z.2 ≠ []
  | _ => True

/-- Side condition for a whole operation sequence, tracked along the
abstract zipper states. -/
def okTrace {α : Type} [DecidableEq α] : List (Op α) → List α × List α → Prop
  | [], _ => True
  | op :: rest, z => okOp op z ∧ okTrace rest (stepA op z)

/-- Doubly-linked segment predicate: chainR h a l c states that following
next from a visits exactly the nodes of l and then reaches c, with every
prev link inverse to the corresponding next link. -/
def chainR {α : Type} (h : Heap α) : Nat → List Nat → Nat → Prop
  | a, [], c => h.nxt a = c ∧ h.prv c = a
  | a, b :: l, c => (h.nxt a = b ∧ h.prv b = a) ∧ chainR h b l c

/-- Pointwise value representation: node list ns stores value list vs. -/
def valsOk {α : Type} (h : Heap α) : List Nat → List α → Prop
  | [], [] => True
  | n :: ns, v :: vs => h.val n = some v ∧ valsOk h ns vs
  | _, _ => False

/-- Well-formed ring anchored at header hd: the non-sentinel nodes are
exactly ns in order, links are a consistent doubly-linked cycle, all ids
are distinct and allocated, the header stores no value and the nodes of ns
store vs. -/
structure RingOf {α : Type} (h : Heap α) (hd : Nat) (ns : List Nat)
    (vs : List α) : Prop where
  chain : chainR h hd ns hd
  nodup : (hd :: ns).Nodup
  bound : ∀ x ∈ hd :: ns, x < h.alloc
  hval : h.val hd = none
  vals : valsOk h ns vs

/-- Full representation with cursor: the list state s holds the element
sequence vs1 ++ vs2 and the window is on the last element of vs1 (on the
header when vs1 is empty), with index equal to vs1.length. -/
def RepC {α : Type} (h : Heap α) (s : ListSt) (vs1 vs2 : List α) : Prop :=
  ∃ ns1 ns2 : List Nat,
    RingOf h s.header (ns1 ++ ns2) (vs1 ++ vs2) ∧
    ns1.length = vs1.length ∧
    s.length = ((vs1 ++ vs2).length : Int) ∧
    s.index = (vs1.length : Int) ∧
    s.win = ns1.getLastD s.header

/-- Weak representation without the cursor index: the ring is well formed,
the window is some ring member and the length field is correct, but the
index field is unconstrained.  This holds in every state the code can
reach, including the states where the cursor index is stale. -/
def RepW {α : Type} (h : Heap α) (s : ListSt) (vs : List α) : Prop :=
  ∃ ns : List Nat,
    RingOf h s.header ns vs ∧
    s.win ∈ s.header :: ns ∧
    s.length = (vs.length : Int)

/-- Two disjoint lists in one heap: full representation for s, weak
representation for l, with disjoint node sets. -/
def RepC₂ {α : Type} (h : Heap α) (s : ListSt) (vs1 vs2 : List α)
    (l : ListSt) (ws : List α) : Prop :=
  ∃ ns1 ns2 ms : List Nat,
    RingOf h s.header (ns1 ++ ns2) (vs1 ++ vs2) ∧
    ns1.length = vs1.length ∧
    s.length = ((vs1 ++ vs2).length : Int) ∧
    s.index = (vs1.length : Int) ∧
    s.win = ns1.getLastD s.header ∧
    RingOf h l.header ms ws ∧
    l.win ∈ l.header :: ms ∧
    l.length = (ws.length : Int) ∧
    (s.header :: ns1 ++ ns2).Disjoint (l.header :: ms)

/-- Two disjoint lists in one heap, neither cursor index constrained. -/
def RepW₂ {α : Type} (h : Heap α) (sA : ListSt) (vsA : List α)
    (sB : ListSt) (vsB : List α) : Prop :=
  ∃ nsA nsB : List Nat,
    RingOf h sA.header nsA vsA ∧
    sA.win ∈ sA.header :: nsA ∧
    sA.length = (vsA.length : Int) ∧
    RingOf h sB.header nsB vsB ∧
    sB.win ∈ sB.header :: nsB ∧
    sB.length = (vsB.length : Int) ∧
    (sA.header :: nsA).Disjoint (sB.header :: nsB)

/-- Cursor invariant claimed by the specification: 0 <= index <= length
and index == 0 exactly when the window rests on the header. -/
def CursorInv (s : ListSt) : Prop :=
  0 ≤ s.index ∧ s.index ≤ s.length ∧ (s.index = 0 ↔ s.win = s.header)

/-- Node n is reachable from hd by following next links. -/
def reachable {α : Type} (h : Heap α) (hd n : Nat) : Prop :=
  ∃ k : Nat, (fun x => h.nxt x)^[k] hd = n

/-- Heap with no nodes allocated yet. -/
def emptyHeap (α : Type) : Heap α :=
  ⟨fun _ => 0, fun _ => 0, fun _ => none, 0⟩

/-- Freshly constructed empty list over Int (header id 0). -/
def exEmpty : Heap Int × ListSt :=
  mkList (emptyHeap Int)

/-- Singleton list holding 7, cursor still on the header. -/
def exOne : Heap Int × ListSt :=
  ListSt.insert exEmpty.1 exEmpty.2 7

/-- Singleton list holding 7, cursor moved onto the element by first(). -/
def exOneAt1 : Heap Int × ListSt :=
  (ListSt.first exOne.1 exOne.2).2

/-- Two lists in one heap: A with header id 0, then B with header id 1. -/
def exA0 : Heap Int × ListSt :=
  mkList (emptyHeap Int)

/-- Second list allocated in the same heap as exA0. -/
def exB0 : Heap Int × ListSt :=
  mkList exA0.1

/-- List A after inserting 1 (node id 2). -/
def exA1 : Heap Int × ListSt :=
  ListSt.insert exB0.1 exA0.2 1

/-- List B after inserting 2 (node id 3), sharing the heap with A. -/
def exB1 : Heap Int × ListSt :=
  ListSt.insert exA1.1 exB0.2 2

/-- State after k successive next() calls, return values discarded. -/
def nextN {α : Type} (k : Nat) (hs : Heap α × ListSt) : Heap α × ListSt :=
  match k with
  | 0 => hs
  | Nat.succ k => nextN k (ListSt.next hs.1 hs.2).2

/-- Push each value of l, in order, onto the stack. -/
def pushAll {α : Type} (l : List α) (hs : Heap α × ListSt) : Heap α × ListSt :=
  match l with
  | [] => hs
  | v :: r => pushAll r (Stack.push hs.1 hs.2 v)

/-- Pop k times, collecting the returned values in order. -/
def popN {α : Type} (k : Nat) (hs : Heap α × ListSt) :
    List (Option α) × Heap α × ListSt :=
  match k with
  | 0 => ([], hs.1, hs.2)
  | Nat.succ k =>
    let p := Stack.pop hs.1 hs.2
    let q := popN k (p.2.1, p.2.2)
    (p.1 :: q.1, q.2.1, q.2.2)

/-! Heap read-over-write lemmas. -/

@[simp] theorem setNxt_nxt {α : Type} (h : Heap α) (x y z : Nat) :
    (setNxt h x y).nxt z = if z = x then y else h.nxt z := rfl

@[simp] theorem setNxt_prv {α : Type} (h : Heap α) (x y : Nat) :
    (setNxt h x y).prv = h.prv := rfl

@[simp] theorem setNxt_val {α : Type} (h : Heap α) (x y : Nat) :
    (setNxt h x y).val = h.val := rfl

@[simp] theorem setNxt_alloc {α : Type} (h : Heap α) (x y : Nat) :
    (setNxt h x y).alloc = h.alloc := rfl

@[simp] theorem setPrv_prv {α : Type} (h : Heap α) (x y z : Nat) :
    (setPrv h x y).prv z = if z = x then y else h.prv z := rfl

@[simp] theorem setPrv_nxt {α : Type} (h : Heap α) (x y : Nat) :
    (setPrv h x y).nxt = h.nxt := rfl

@[simp] theorem setPrv_val {α : Type} (h : Heap α) (x y : Nat) :
    (setPrv h x y).val = h.val := rfl

@[simp] theorem setPrv_alloc {α : Type} (h : Heap α) (x y : Nat) :
    (setPrv h x y).alloc = h.alloc := rfl

@[simp] theorem setVal_val {α : Type} (h : Heap α) (x : Nat) (v : Option α) (z : Nat) :
    (setVal h x v).val z = if z = x then v else h.val z := rfl

@[simp] theorem setVal_nxt {α : Type} (h : Heap α) (x : Nat) (v : Option α) :
    (setVal h x v).nxt = h.nxt := rfl

@[simp] theorem setVal_prv {α : Type} (h : Heap α) (x : Nat) (v : Option α) :
    (setVal h x v).prv = h.prv := rfl

@[simp] theorem setVal_alloc {α : Type} (h : Heap α) (x : Nat) (v : Option α) :
    (setVal h x v).alloc = h.alloc := rfl

@[simp] theorem allocNode_nxt {α : Type} (h : Heap α) (v : Option α) (z : Nat) :
    (allocNode h v).1.nxt z = if z = h.alloc then h.alloc else h.nxt z := rfl

@[simp] theorem allocNode_prv {α : Type} (h : Heap α) (v : Option α) (z : Nat) :
    (allocNode h v).1.prv z = if z = h.alloc then h.alloc else h.prv z := rfl

@[simp] theorem allocNode_val {α : Type} (h : Heap α) (v : Option α) (z : Nat) :
    (allocNode h v).1.val z = if z = h.alloc then v else h.val z := rfl

@[simp] theorem allocNode_alloc {α : Type} (h : Heap α) (v : Option α) :
    (allocNode h v).1.alloc = h.alloc + 1 := rfl

@[simp] theorem allocNode_snd {α : Type} (h : Heap α) (v : Option α) :
    (allocNode h v).2 = h.alloc := rfl

/-! Lemmas about the doubly-linked segment predicate chainR. -/

theorem chainR_append_cons {α : Type} {h : Heap α} :
    ∀ (l₁ : List Nat) (a w : Nat) (l₂ : List Nat) (c : Nat),
      chainR h a (l₁ ++ w :: l₂) c ↔ chainR h a l₁ w ∧ chainR h w l₂ c
  | [], a, w, l₂, c => by simp [chainR, and_assoc]
  | b :: l₁, a, w, l₂, c => by
    have ih := @chainR_append_cons α h l₁ b w l₂ c
    simp only [List.cons_append, chainR, List.append_eq] at ih ⊢
    rw [ih]
    tauto

theorem chainR_frame {α : Type} {h h' : Heap α} :
    ∀ {l : List Nat} {a c : Nat}, chainR h a l c →
      (∀ x ∈ a :: l, h'.nxt x = h.nxt x) →
      (∀ x ∈ l ++ [c], h'.prv x = h.prv x) → chainR h' a l c
  | [], a, c, hc, hn, hp =>
    ⟨(hn a (by simp)).trans hc.1, (hp c (by simp)).trans hc.2⟩
  | b :: l, a, c, hc, hn, hp => by
    refine ⟨⟨(hn a (by simp)).trans hc.1.1, (hp b (by simp)).trans hc.1.2⟩, ?_⟩
    refine chainR_frame hc.2 (fun x hx => hn x (List.mem_cons_of_mem a hx))
      (fun x hx => hp x ?_)
    simp only [List.cons_append, List.mem_cons, List.mem_append,
      List.mem_singleton] at hx ⊢
    tauto

theorem chainR_nxt_last {α : Type} {h : Heap α} :
    ∀ {l : List Nat} {a c : Nat}, chainR h a l c → h.nxt (l.getLastD a) = c
  | [], _, _, hc => hc.1
  | b :: l, a, c, hc => by
    rw [List.getLastD_cons]
    exact chainR_nxt_last hc.2

theorem chainR_prv_last {α : Type} {h : Heap α} :
    ∀ {l : List Nat} {a c : Nat}, chainR h a l c → h.prv c = l.getLastD a
  | [], _, _, hc => hc.2
  | b :: l, a, c, hc => by
    rw [List.getLastD_cons]
    exact chainR_prv_last hc.2

theorem chainR_nxt_mem {α : Type} {h : Heap α} :
    ∀ {l : List Nat} {a c x : Nat}, chainR h a l c → x ∈ a :: l → h.nxt x ∈ l ++ [c]
  | [], a, c, x, hc, hx => by
    simp only [List.not_mem_nil, List.mem_cons, or_false] at hx
    subst hx
    simp [hc.1]
  | b :: l, a, c, x, hc, hx => by
    rcases List.mem_cons.1 hx with rfl | hx
    · simp [hc.1.1]
    · have h2 := chainR_nxt_mem hc.2 hx
      simp only [List.cons_append, List.mem_cons, List.mem_append,
        List.mem_singleton] at h2 ⊢
      tauto

theorem chainR_prv_mem {α : Type} {h : Heap α} :
    ∀ {l : List Nat} {a c x : Nat}, chainR h a l c → x ∈ l ++ [c] → h.prv x ∈ a :: l
  | [], a, c, x, hc, hx => by
    simp only [List.nil_append, List.mem_singleton] at hx
    subst hx
    simp [hc.2]
  | b :: l, a, c, x, hc, hx => by
    simp only [List.cons_append, List.mem_cons] at hx
    rcases hx with rfl | hx
    · simp [hc.1.2]
    · exact List.mem_cons_of_mem a (chainR_prv_mem hc.2 (by simpa using hx))

theorem chainR_nxt_getD {α : Type} {h : Heap α} :
    ∀ {l : List Nat} {a c : Nat} (j : Nat), chainR h a l c → j ≤ l.length →
      h.nxt ((a :: l).getD j 0) = (l ++ [c]).getD j 0
  | [], a, c, j, hc, hj => by
    have hj0 : j = 0 := Nat.le_zero.mp hj
    subst hj0
    simpa using hc.1
  | b :: l, a, c, j, hc, hj => by
    match j with
    | 0 => simpa using hc.1.1
    | Nat.succ k =>
      have := chainR_nxt_getD k hc.2 (by simpa using hj)
      simpa using this

theorem chainR_prv_getD {α : Type} {h : Heap α} :
    ∀ {l : List Nat} {a c : Nat} (j : Nat), chainR h a l c → j ≤ l.length →
      h.prv ((l ++ [c]).getD j 0) = (a :: l).getD j 0
  | [], a, c, j, hc, hj => by
    have hj0 : j = 0 := Nat.le_zero.mp hj
    subst hj0
    simpa using hc.2
  | b :: l, a, c, j, hc, hj => by
    match j with
    | 0 => simpa using hc.1.2
    | Nat.succ k =>
      have := chainR_prv_getD k hc.2 (by simpa using hj)
      simpa using this

theorem chainR_iter_nxt {α : Type} {h : Heap α} {l : List Nat} {a c : Nat}
    (hc : chainR h a l c) :
    ∀ (k j : Nat), j + k ≤ l.length →
      (fun x => h.nxt x)^[k] ((a :: l).getD j 0) = (a :: l).getD (j + k) 0
  | 0, j, hk => by simp
  | Nat.succ k, j, hk => by
    rw [Function.iterate_succ_apply]
    have h1 : h.nxt ((a :: l).getD j 0) = (a :: l).getD (j + 1) 0 := by
      rw [chainR_nxt_getD j hc (by omega)]
      rw [List.getD_append _ _ _ _ (by omega)]
      simp
    rw [h1]
    have h2 := chainR_iter_nxt hc k (j + 1) (by omega)
    rw [h2]
    congr 1
    omega

theorem chainR_iter_prv {α : Type} {h : Heap α} {l : List Nat} {a c : Nat}
    (hc : chainR h a l c) :
    ∀ (k j : Nat), k ≤ j → j ≤ l.length →
      (fun x => h.prv x)^[k] ((a :: l).getD j 0) = (a :: l).getD (j - k) 0
  | 0, j, _, _ => by simp
  | Nat.succ k, j, hk, hj => by
    rw [Function.iterate_succ_apply]
    have h1 : h.prv ((a :: l).getD j 0) = (a :: l).getD (j - 1) 0 := by
      have h0 : (a :: l).getD j 0 = (l ++ [c]).getD (j - 1) 0 := by
        rw [List.getD_append _ _ _ _ (by omega)]
        match j, hk with
        | Nat.succ j, _ => simp
      rw [h0, chainR_prv_getD (j - 1) hc (by omega)]
    rw [h1]
    have h2 := chainR_iter_prv hc k (j - 1) (by omega) (by omega)
    rw [h2]
    congr 1
    omega

theorem chainR_retarget {α : Type} {h h' : Heap α} :
    ∀ {l : List Nat} {a c c' : Nat}, chainR h a l c → (a :: l).Nodup →
      h'.nxt (l.getLastD a) = c' → h'.prv c' = l.getLastD a →
      (∀ x ∈ a :: l, x ≠ l.getLastD a → h'.nxt x = h.nxt x) →
      (∀ x ∈ l, h'.prv x = h.prv x) → chainR h' a l c'
  | [], a, c, c', hc, hd, hn, hp, hfn, hfp => ⟨hn, hp⟩
  | b :: l, a, c, c', hc, hd, hn, hp, hfn, hfp => by
    have hlast : (b :: l).getLastD a = l.getLastD b := List.getLastD_cons a b l
    have hmem : l.getLastD b ∈ b :: l := List.getLastD_mem_cons l b
    have hane : a ≠ (b :: l).getLastD a := by
      rw [hlast]
      intro hEq
      exact (List.nodup_cons.1 hd).1 (hEq ▸ hmem)
    refine ⟨⟨(hfn a (by simp) hane).trans hc.1.1, (hfp b (by simp)).trans hc.1.2⟩, ?_⟩
    refine chainR_retarget hc.2 (List.nodup_cons.1 hd).2 (by rw [← hlast]; exact hn)
      (by rw [← hlast]; exact hp) ?_ (fun x hx => hfp x (List.mem_cons_of_mem b hx))
    intro x hx hne
    exact hfn x (List.mem_cons_of_mem a hx) (by rw [hlast]; exact hne)

/-! Lemmas about valsOk. -/

theorem valsOk_length {α : Type} {h : Heap α} :
    ∀ {ns : List Nat} {vs : List α}, valsOk h ns vs → ns.length = vs.length
  | [], [], _ => rfl
  | [], _ :: _, hv => absurd hv (by simp [valsOk])
  | _ :: _, [], hv => absurd hv (by simp [valsOk])
  | _ :: ns, _ :: vs, hv => by
    simp only [List.length_cons, Nat.succ_inj]
    exact valsOk_length hv.2

theorem valsOk_append {α : Type} {h : Heap α} :
    ∀ {ns1 : List Nat} {vs1 : List α} (ns2 : List Nat) (vs2 : List α),
      ns1.length = vs1.length →
      (valsOk h (ns1 ++ ns2) (vs1 ++ vs2) ↔ valsOk h ns1 vs1 ∧ valsOk h ns2 vs2)
  | [], [], ns2, vs2, _ => by simp [valsOk]
  | [], _ :: _, _, _, hl => by simp at hl
  | _ :: _, [], _, _, hl => by simp at hl
  | n :: ns1, v :: vs1, ns2, vs2, hl => by
    simp only [List.cons_append, valsOk, List.append_eq]
    rw [valsOk_append ns2 vs2 (by simpa using hl)]
    tauto

theorem valsOk_frame {α : Type} {h h' : Heap α} :
    ∀ {ns : List Nat} {vs : List α}, valsOk h ns vs →
      (∀ x ∈ ns, h'.val x = h.val x) → valsOk h' ns vs
  | [], [], _, _ => trivial
  | [], _ :: _, hv, _ => absurd hv (by simp [valsOk])
  | _ :: _, [], hv, _ => absurd hv (by simp [valsOk])
  | n :: ns, v :: vs, hv, hf => by
    exact ⟨(hf n (by simp)).trans hv.1,
      valsOk_frame hv.2 (fun x hx => hf x (List.mem_cons_of_mem n hx))⟩

theorem valsOk_getD {α : Type} {h : Heap α} :
    ∀ {ns : List Nat} {vs : List α} (j : Nat), valsOk h ns vs → j < ns.length →
      h.val (ns.getD j 0) = vs[j]?
  | [], _, j, _, hj => by simp at hj
  | _ :: _, [], j, hv, hj => absurd hv (by simp [valsOk])
  | n :: ns, v :: vs, 0, hv, hj => by simpa using hv.1
  | n :: ns, v :: vs, Nat.succ j, hv, hj => by
    have := valsOk_getD j hv.2 (by simpa using hj)
    simpa using this

/-! Bridges between getLastD and getD. -/

theorem getLastD_eq_getD (a : Nat) :
    ∀ (l1 l2 : List Nat), l1.getLastD a = (a :: (l1 ++ l2)).getD l1.length 0 := by
  intro l1
  induction l1 generalizing a with
  | nil => intro l2; simp
  | cons b l ih =>
    intro l2
    rw [List.getLastD_cons]
    simpa using ih b l2

theorem getLastD_mem_cons_nat (a : Nat) (l : List Nat) :
    l.getLastD a ∈ a :: l :=
  List.getLastD_mem_cons l a

/-! Field-level characterizations of the node operations. -/

theorem nodeInsert_nxt {α : Type} (h : Heap α) (w b z : Nat) :
    (ListNode.insert h w b).nxt z =
      if z = w then b else if z = b then h.nxt w else h.nxt z := rfl

theorem nodeInsert_prv {α : Type} (h : Heap α) (w b z : Nat) :
    (ListNode.insert h w b).prv z =
      if z = h.nxt w then b else if z = b then w else h.prv z := rfl

theorem nodeInsert_val {α : Type} (h : Heap α) (w b : Nat) :
    (ListNode.insert h w b).val = h.val := rfl

theorem nodeInsert_alloc {α : Type} (h : Heap α) (w b : Nat) :
    (ListNode.insert h w b).alloc = h.alloc := rfl

theorem nodeRemove_nxt {α : Type} (h : Heap α) (a z : Nat) :
    (ListNode.remove h a).nxt z =
      if z = a then a else if z = h.prv a then h.nxt a else h.nxt z := rfl

theorem nodeRemove_prv {α : Type} (h : Heap α) (a z : Nat) :
    (ListNode.remove h a).prv z =
      if z = a then a else if z = h.nxt a then h.prv a else h.prv z := by
  show (if z = a then a
    else if z = (if a = h.prv a then h.nxt a else h.nxt a) then h.prv a else h.prv z) = _
  rw [ite_self]

theorem nodeRemove_val {α : Type} (h : Heap α) (a : Nat) :
    (ListNode.remove h a).val = h.val := rfl

theorem nodeRemove_alloc {α : Type} (h : Heap α) (a : Nat) :
    (ListNode.remove h a).alloc = h.alloc := rfl

theorem nodeSplice_nxt {α : Type} (h : Heap α) (a b z : Nat) :
    (ListNode.splice h a b).nxt z =
      if z = b then h.nxt a else if z = a then h.nxt b else h.nxt z := rfl

theorem nodeSplice_prv {α : Type} (h : Heap α) (a b z : Nat) :
    (ListNode.splice h a b).prv z =
      if z = h.nxt b then a else if z = h.nxt a then b else h.prv z := rfl

theorem nodeSplice_val {α : Type} (h : Heap α) (a b : Nat) :
    (ListNode.splice h a b).val = h.val := rfl

theorem nodeSplice_alloc {α : Type} (h : Heap α) (a b : Nat) :
    (ListNode.splice h a b).alloc = h.alloc := rfl

/-- Inserting a freshly allocated node holding v immediately after the node
at zipper position ns1 (after the header when ns1 is empty) extends a
well-formed ring at that position. -/
theorem ringOf_insertAfter {α : Type} {h : Heap α} {hd : Nat} {ns1 ns2 : List Nat}
    {vs1 vs2 : List α} (hr : RingOf h hd (ns1 ++ ns2) (vs1 ++ vs2))
    (hlen : ns1.length = vs1.length) (v : α) :
    RingOf (ListNode.insert (allocNode h (some v)).1 (ns1.getLastD hd)
        (allocNode h (some v)).2)
      hd (ns1 ++ h.alloc :: ns2) (vs1 ++ v :: vs2) := by
  obtain ⟨hchain, hnodup, hbound, hhval, hvals⟩ := hr
  simp only [allocNode_snd]
  have hd_notin : hd ∉ ns1 ++ ns2 := (List.nodup_cons.1 hnodup).1
  have hnsdup : (ns1 ++ ns2).Nodup := (List.nodup_cons.1 hnodup).2
  have hwmem : ns1.getLastD hd ∈ hd :: ns1 := List.getLastD_mem_cons ns1 hd
  have hwring : ns1.getLastD hd ∈ hd :: (ns1 ++ ns2) := by
    rcases List.mem_cons.1 hwmem with hEq | hw1
    · rw [hEq]; simp
    · exact List.mem_cons_of_mem _ (List.mem_append_left _ hw1)
  have hne_b : ∀ x ∈ hd :: (ns1 ++ ns2), x ≠ h.alloc :=
    fun x hx hEq => lt_irrefl h.alloc (hEq ▸ hbound x hx)
  have hwb : ns1.getLastD hd ≠ h.alloc := hne_b _ hwring
  have hcring : h.nxt (ns1.getLastD hd) ∈ hd :: (ns1 ++ ns2) := by
    have h2 := chainR_nxt_mem hchain hwring
    rcases List.mem_append.1 h2 with h1 | h1
    · exact List.mem_cons_of_mem _ h1
    · simp only [List.mem_singleton] at h1
      rw [h1]; simp
  have hcb : h.nxt (ns1.getLastD hd) ≠ h.alloc := hne_b _ hcring
  have h0nxt : ∀ x, x ≠ h.alloc → (allocNode h (some v)).1.nxt x = h.nxt x := by
    intro x hx; simp [hx]
  have h0prv : ∀ x, x ≠ h.alloc → (allocNode h (some v)).1.prv x = h.prv x := by
    intro x hx; simp [hx]
  have hnxt_w : (ListNode.insert (allocNode h (some v)).1 (ns1.getLastD hd)
      h.alloc).nxt (ns1.getLastD hd) = h.alloc := by
    rw [nodeInsert_nxt]; simp
  have h0nw : (allocNode h (some v)).1.nxt (ns1.getLastD hd) = h.nxt (ns1.getLastD hd) :=
    h0nxt _ hwb
  have hnxt_b : (ListNode.insert (allocNode h (some v)).1 (ns1.getLastD hd)
      h.alloc).nxt h.alloc = h.nxt (ns1.getLastD hd) := by
    rw [nodeInsert_nxt, if_neg (Ne.symm hwb), if_pos rfl, h0nw]
  have hnxt_other : ∀ x, x ≠ ns1.getLastD hd → x ≠ h.alloc →
      (ListNode.insert (allocNode h (some v)).1 (ns1.getLastD hd) h.alloc).nxt x
        = h.nxt x := by
    intro x hx1 hx2
    rw [nodeInsert_nxt, if_neg hx1, if_neg hx2, h0nxt x hx2]
  have hprv_b : (ListNode.insert (allocNode h (some v)).1 (ns1.getLastD hd)
      h.alloc).prv h.alloc = ns1.getLastD hd := by
    rw [nodeInsert_prv, h0nw, if_neg (Ne.symm hcb), if_pos rfl]
  have hprv_c : (ListNode.insert (allocNode h (some v)).1 (ns1.getLastD hd)
      h.alloc).prv (h.nxt (ns1.getLastD hd)) = h.alloc := by
    rw [nodeInsert_prv, h0nw, if_pos rfl]
  have hprv_other : ∀ x, x ≠ h.nxt (ns1.getLastD hd) → x ≠ h.alloc →
      (ListNode.insert (allocNode h (some v)).1 (ns1.getLastD hd) h.alloc).prv x
        = h.prv x := by
    intro x hx1 hx2
    rw [nodeInsert_prv, h0nw, if_neg hx1, if_neg hx2, h0prv x hx2]
  have hval_b : (ListNode.insert (allocNode h (some v)).1 (ns1.getLastD hd)
      h.alloc).val h.alloc = some v := by
    rw [nodeInsert_val]; simp
  have hval_other : ∀ x, x ≠ h.alloc →
      (ListNode.insert (allocNode h (some v)).1 (ns1.getLastD hd) h.alloc).val x
        = h.val x := by
    intro x hx
    rw [nodeInsert_val]; simp [hx]
  have hnodup1 : (hd :: ns1).Nodup := by
    have : (hd :: ns1).Sublist (hd :: (ns1 ++ ns2)) :=
      List.Sublist.cons₂ hd (List.sublist_append_left ns1 ns2)
    exact List.Nodup.sublist this hnodup
  refine ⟨?_, ?_, ?_, ?_, ?_⟩
  · -- the new ring chain
    rw [chainR_append_cons]
    cases ns2 with
    | nil =>
      have hchain1 : chainR h hd ns1 hd := by simpa using hchain
      have ht : h.nxt (ns1.getLastD hd) = hd := chainR_nxt_last hchain1
      constructor
      · refine chainR_retarget hchain1 hnodup1 hnxt_w hprv_b ?_ ?_
        · intro x hx hne
          refine hnxt_other x hne (hne_b x ?_)
          rcases List.mem_cons.1 hx with hEq | h1
          · rw [hEq]; simp
          · exact List.mem_cons_of_mem _ (List.mem_append_left _ h1)
        · intro x hx
          refine hprv_other x ?_ (hne_b x (List.mem_cons_of_mem _
            (List.mem_append_left _ hx)))
          rw [ht]
          intro hEq
          exact hd_notin (hEq ▸ List.mem_append_left _ hx)
      · exact ⟨hnxt_b.trans ht, by have h9 := hprv_c; rw [ht] at h9; exact h9⟩
    | cons t ns2' =>
      have hsplit := (chainR_append_cons ns1 hd t ns2' hd).1 hchain
      have ht : h.nxt (ns1.getLastD hd) = t := chainR_nxt_last hsplit.1
      have htns2 : t ∈ ns1 ++ t :: ns2' := List.mem_append_right _ (by simp)
      constructor
      · refine chainR_retarget hsplit.1 hnodup1 hnxt_w hprv_b ?_ ?_
        · intro x hx hne
          refine hnxt_other x hne (hne_b x ?_)
          rcases List.mem_cons.1 hx with hEq | h1
          · rw [hEq]; simp
          · exact List.mem_cons_of_mem _ (List.mem_append_left _ h1)
        · intro x hx
          refine hprv_other x ?_ (hne_b x (List.mem_cons_of_mem _
            (List.mem_append_left _ hx)))
          rw [ht]
          intro hEq
          exact (List.disjoint_of_nodup_append hnsdup) hx (hEq ▸ (by simp))
      · refine ⟨⟨hnxt_b.trans ht,
          by have h9 := hprv_c; rw [ht] at h9; exact h9⟩, ?_⟩
        have hchain2 : chainR h t ns2' hd := hsplit.2
        refine chainR_frame hchain2 ?_ ?_
        · intro x hx
          have hxring : x ∈ hd :: (ns1 ++ t :: ns2') :=
            List.mem_cons_of_mem _ (List.mem_append_right _ hx)
          refine hnxt_other x ?_ (hne_b x hxring)
          intro hEq
          rcases List.mem_cons.1 hwmem with hw1 | hw1
          · rw [hEq, hw1] at hx
            exact (List.nodup_cons.1 hnodup).1 (List.mem_append_right _ hx)
          · rw [hEq] at hx
            exact (List.disjoint_of_nodup_append hnsdup) hw1 hx
        · intro x hx
          simp only [List.mem_append, List.mem_singleton] at hx
          have hxring : x ∈ hd :: (ns1 ++ t :: ns2') := by
            rcases hx with h1 | h1
            · exact List.mem_cons_of_mem _ (List.mem_append_right _
                (List.mem_cons_of_mem _ h1))
            · rw [h1]; simp
          refine hprv_other x ?_ (hne_b x hxring)
          rw [ht]
          have hns2dup : (t :: ns2').Nodup :=
            List.Nodup.sublist (List.sublist_append_right ns1 _) hnsdup
          rcases hx with h1 | h1
          · intro hEq
            exact (List.nodup_cons.1 hns2dup).1 (hEq ▸ h1)
          · rw [h1]
            intro hEq
            exact hd_notin (hEq ▸ List.mem_append_right _ (by simp))
  · -- nodup
    have hperm : (hd :: (ns1 ++ h.alloc :: ns2)).Perm
        (h.alloc :: hd :: (ns1 ++ ns2)) := by
      refine List.Perm.trans (List.Perm.cons hd List.perm_middle) ?_
      exact List.Perm.swap h.alloc hd (ns1 ++ ns2)
    refine (List.Perm.nodup_iff hperm).2 ?_
    exact List.nodup_cons.2 ⟨fun hmem => lt_irrefl h.alloc (hbound _ hmem), hnodup⟩
  · -- bound
    intro x hx
    have halloc : (ListNode.insert (allocNode h (some v)).1 (ns1.getLastD hd)
        h.alloc).alloc = h.alloc + 1 := rfl
    rw [halloc]
    simp only [List.mem_cons, List.mem_append] at hx
    rcases hx with hEq | h1 | hEq | h1
    · have := hbound hd (by simp); omega
    · have := hbound x (List.mem_cons_of_mem _ (List.mem_append_left _ h1)); omega
    · omega
    · have := hbound x (List.mem_cons_of_mem _ (List.mem_append_right _ h1)); omega
  · -- header value
    rw [hval_other hd (hne_b hd (by simp))]
    exact hhval
  · -- node values
    rw [valsOk_append (h.alloc :: ns2) (v :: vs2) hlen]
    have hvsplit := (valsOk_append ns2 vs2 hlen).1 hvals
    constructor
    · exact valsOk_frame hvsplit.1 (fun x hx => hval_other x
        (hne_b x (List.mem_cons_of_mem _ (List.mem_append_left _ hx))))
    · exact ⟨hval_b, valsOk_frame hvsplit.2 (fun x hx => hval_other x
        (hne_b x (List.mem_cons_of_mem _ (List.mem_append_right _ hx))))⟩

/-- Unlinking the node w from a well-formed chain ring closes the ring
around it. -/
theorem chainR_removeMid {α : Type} {h : Heap α} {hd : Nat} {ns1 ns2 : List Nat}
    {w : Nat} (hchain : chainR h hd (ns1 ++ w :: ns2) hd)
    (hnodup : (hd :: (ns1 ++ w :: ns2)).Nodup) :
    chainR (ListNode.remove h w) hd (ns1 ++ ns2) hd := by
  have hsplit := (chainR_append_cons ns1 hd w ns2 hd).1 hchain
  have hp : h.prv w = ns1.getLastD hd := chainR_prv_last hsplit.1
  have hd_notin : hd ∉ ns1 ++ w :: ns2 := (List.nodup_cons.1 hnodup).1
  have hnsdup : (ns1 ++ w :: ns2).Nodup := (List.nodup_cons.1 hnodup).2
  have hdisj := List.disjoint_of_nodup_append hnsdup
  have hw_notin1 : w ∉ ns1 := fun hmem => hdisj hmem (by simp)
  have hw_ne_hd : w ≠ hd := fun hEq => hd_notin (hEq ▸ List.mem_append_right _ (by simp))
  have hw_notin_cons : w ∉ hd :: ns1 := by
    intro hmem
    rcases List.mem_cons.1 hmem with hEq | h1
    · exact hw_ne_hd hEq
    · exact hw_notin1 h1
  have hpmem : ns1.getLastD hd ∈ hd :: ns1 := List.getLastD_mem_cons ns1 hd
  have hpw : ns1.getLastD hd ≠ w := fun hEq => hw_notin_cons (hEq ▸ hpmem)
  have hnxt_p : (ListNode.remove h w).nxt (ns1.getLastD hd) = h.nxt w := by
    rw [nodeRemove_nxt, if_neg hpw, hp, if_pos rfl]
  have hnodup1 : (hd :: ns1).Nodup := by
    have hsub : (hd :: ns1).Sublist (hd :: (ns1 ++ w :: ns2)) :=
      List.Sublist.cons₂ hd (List.sublist_append_left ns1 _)
    exact List.Nodup.sublist hsub hnodup
  cases ns2 with
  | nil =>
    have hn : h.nxt w = hd := hsplit.2.1
    simp only [List.append_nil]
    refine chainR_retarget hsplit.1 hnodup1 (by rw [hnxt_p, hn]) ?_ ?_ ?_
    · rw [nodeRemove_prv, if_neg (Ne.symm hw_ne_hd), hn, if_pos rfl, hp]
    · intro x hx hne
      have hxw : x ≠ w := fun hEq => hw_notin_cons (hEq ▸ hx)
      rw [nodeRemove_nxt, if_neg hxw, hp, if_neg hne]
    · intro x hx
      have hxw : x ≠ w := fun hEq => hw_notin1 (hEq ▸ hx)
      have hxhd : x ≠ hd := fun hEq => hd_notin (hEq ▸ List.mem_append_left _ hx)
      rw [nodeRemove_prv, if_neg hxw, hn, if_neg hxhd]
  | cons t ns2' =>
    have hn : h.nxt w = t := hsplit.2.1.1
    have ht_notin1 : t ∉ ns1 := fun hmem => hdisj hmem (by simp)
    have ht_ne_hd : t ≠ hd := fun hEq =>
      hd_notin (hEq ▸ List.mem_append_right _ (by simp))
    have hns2dup : (w :: t :: ns2').Nodup :=
      List.Nodup.sublist (List.sublist_append_right ns1 _) hnsdup
    have hw_ne_t : w ≠ t := fun hEq => (List.nodup_cons.1 hns2dup).1 (hEq ▸ (by simp))
    have ht_notin2 : t ∉ ns2' := (List.nodup_cons.1 (List.nodup_cons.1 hns2dup).2).1
    have hw_notin2 : w ∉ ns2' := fun hmem =>
      (List.nodup_cons.1 hns2dup).1 (List.mem_cons_of_mem _ hmem)
    rw [chainR_append_cons]
    constructor
    · refine chainR_retarget hsplit.1 hnodup1 (by rw [hnxt_p, hn]) ?_ ?_ ?_
      · rw [nodeRemove_prv, if_neg (Ne.symm hw_ne_t), hn, if_pos rfl, hp]
      · intro x hx hne
        have hxw : x ≠ w := fun hEq => hw_notin_cons (hEq ▸ hx)
        rw [nodeRemove_nxt, if_neg hxw, hp, if_neg hne]
      · intro x hx
        have hxw : x ≠ w := fun hEq => hw_notin1 (hEq ▸ hx)
        have hxt : x ≠ t := fun hEq => ht_notin1 (hEq ▸ hx)
        rw [nodeRemove_prv, if_neg hxw, hn, if_neg hxt]
    · refine chainR_frame hsplit.2.2 ?_ ?_
      · intro x hx
        have hxw : x ≠ w := fun hEq => (List.nodup_cons.1 hns2dup).1 (hEq ▸ hx)
        have hxp : x ≠ h.prv w := by
          rw [hp]
          intro hEq
          rcases List.mem_cons.1 (hEq ▸ hpmem : x ∈ hd :: ns1) with h1 | h1
          · rcases List.mem_cons.1 hx with h2 | h2
            · exact ht_ne_hd (h2.symm ▸ h1)
            · exact hd_notin (h1 ▸ List.mem_append_right _
                (List.mem_cons_of_mem _ (List.mem_cons_of_mem _ h2)))
          · rcases List.mem_cons.1 hx with h2 | h2
            · exact ht_notin1 (h2 ▸ h1)
            · exact hdisj h1 (List.mem_cons_of_mem _ (List.mem_cons_of_mem _ h2))
        rw [nodeRemove_nxt, if_neg hxw, if_neg hxp]
      · intro x hx
        simp only [List.mem_append, List.mem_singleton] at hx
        have hxw : x ≠ w := by
          rcases hx with h1 | h1
          · exact fun hEq => hw_notin2 (hEq ▸ h1)
          · exact fun hEq => hw_ne_hd (hEq ▸ h1 ▸ rfl)
        have hxt : x ≠ t := by
          rcases hx with h1 | h1
          · exact fun hEq => ht_notin2 (hEq ▸ h1)
          · rw [h1]; exact Ne.symm ht_ne_hd
        rw [nodeRemove_prv, if_neg hxw, hn, if_neg hxt]

/-- Singleton links of a removed node. -/
theorem nodeRemove_self {α : Type} (h : Heap α) (w : Nat) :
    (ListNode.remove h w).nxt w = w ∧ (ListNode.remove h w).prv w = w := by
  rw [nodeRemove_nxt, nodeRemove_prv]
  simp

/-- Removing the node at zipper position ns1 ++ [w] from a well-formed ring
yields a well-formed ring on the remaining nodes. -/
theorem ringOf_removeMid {α : Type} {h : Heap α} {hd : Nat} {ns1 ns2 : List Nat}
    {w : Nat} {vs1 vs2 : List α} {x : α}
    (hr : RingOf h hd (ns1 ++ w :: ns2) (vs1 ++ x :: vs2))
    (hlen : ns1.length = vs1.length) :
    RingOf (ListNode.remove h w) hd (ns1 ++ ns2) (vs1 ++ vs2) := by
  obtain ⟨hchain, hnodup, hbound, hhval, hvals⟩ := hr
  have hsub : (hd :: (ns1 ++ ns2)).Sublist (hd :: (ns1 ++ w :: ns2)) :=
    List.Sublist.cons₂ hd (List.Sublist.append (List.Sublist.refl ns1)
      (List.sublist_cons_self w ns2))
  refine ⟨chainR_removeMid hchain hnodup, List.Nodup.sublist hsub hnodup, ?_, ?_, ?_⟩
  · intro y hy
    rw [nodeRemove_alloc]
    exact hbound y (hsub.mem hy)
  · rw [nodeRemove_val]
    exact hhval
  · have hvsplit := (valsOk_append (w :: ns2) (x :: vs2) hlen).1 hvals
    rw [valsOk_append ns2 vs2 hlen]
    have hframe : ∀ y ∈ ns1 ++ ns2, (ListNode.remove h w).val y = h.val y := by
      intro y _
      rw [nodeRemove_val]
    exact ⟨valsOk_frame hvsplit.1 (fun y hy => hframe y (List.mem_append_left _ hy)),
      valsOk_frame hvsplit.2.2 (fun y hy => hframe y (List.mem_append_right _ hy))⟩

/-- Splicing list B onto the end of list A and then unlinking B's header
produces a single well-formed ring holding A's nodes followed by B's. -/
theorem ringOf_appendList {α : Type} {h : Heap α} {hdA hdB : Nat}
    {nsA nsB : List Nat} {vsA vsB : List α}
    (hA : RingOf h hdA nsA vsA) (hB : RingOf h hdB nsB vsB)
    (hdisj : (hdA :: nsA).Disjoint (hdB :: nsB)) :
    RingOf (ListNode.remove (ListNode.splice h (h.prv hdA) hdB) hdB) hdA
      (nsA ++ nsB) (vsA ++ vsB) := by
  obtain ⟨hchA, hndA, hbdA, hvhA, hvsA⟩ := hA
  obtain ⟨hchB, hndB, hbdB, hvhB, hvsB⟩ := hB
  have hprvA : h.prv hdA = nsA.getLastD hdA := chainR_prv_last hchA
  have hnxtlast : h.nxt (nsA.getLastD hdA) = hdA := chainR_nxt_last hchA
  have haA : nsA.getLastD hdA ∈ hdA :: nsA := List.getLastD_mem_cons nsA hdA
  have ha_ne_hdB : nsA.getLastD hdA ≠ hdB := fun hEq => hdisj haA (hEq ▸ (by simp))
  have hbnBr : h.nxt hdB ∈ hdB :: nsB := by
    have h2 := chainR_nxt_mem hchB (show hdB ∈ hdB :: nsB by simp)
    rcases List.mem_append.1 h2 with h1 | h1
    · exact List.mem_cons_of_mem _ h1
    · simp only [List.mem_singleton] at h1
      rw [h1]; simp
  have hbn_ne_hdA : h.nxt hdB ≠ hdA := fun hEq =>
    hdisj (show hdA ∈ hdA :: nsA by simp) (hEq ▸ hbnBr)
  rw [hprvA]
  have h1nxt_hdB : (ListNode.splice h (nsA.getLastD hdA) hdB).nxt hdB = hdA := by
    rw [nodeSplice_nxt, if_pos rfl, hnxtlast]
  have h1nxt_a : (ListNode.splice h (nsA.getLastD hdA) hdB).nxt (nsA.getLastD hdA)
      = h.nxt hdB := by
    rw [nodeSplice_nxt, if_neg ha_ne_hdB, if_pos rfl]
  have h1nxt_other : ∀ z, z ≠ hdB → z ≠ nsA.getLastD hdA →
      (ListNode.splice h (nsA.getLastD hdA) hdB).nxt z = h.nxt z := by
    intro z h1 h2
    rw [nodeSplice_nxt, if_neg h1, if_neg h2]
  have h1prv_hdA : (ListNode.splice h (nsA.getLastD hdA) hdB).prv hdA = hdB := by
    rw [nodeSplice_prv, if_neg (Ne.symm hbn_ne_hdA), hnxtlast, if_pos rfl]
  have h1prv_bn : (ListNode.splice h (nsA.getLastD hdA) hdB).prv (h.nxt hdB)
      = nsA.getLastD hdA := by
    rw [nodeSplice_prv, if_pos rfl]
  have h1prv_other : ∀ z, z ≠ h.nxt hdB → z ≠ hdA →
      (ListNode.splice h (nsA.getLastD hdA) hdB).prv z = h.prv z := by
    intro z h1 h2
    rw [nodeSplice_prv, if_neg h1, hnxtlast, if_neg h2]
  have hmid : chainR (ListNode.splice h (nsA.getLastD hdA) hdB) hdA
      ((nsA ++ nsB) ++ hdB :: []) hdA := by
    rw [chainR_append_cons]
    constructor
    · cases nsB with
      | nil =>
        simp only [List.append_nil]
        have hBnil : h.nxt hdB = hdB := hchB.1
        refine chainR_retarget hchA hndA (by rw [h1nxt_a, hBnil]) ?_ ?_ ?_
        · have h9 := h1prv_bn
          rw [hBnil] at h9
          exact h9
        · intro x hx hne
          exact h1nxt_other x (fun hEq => hdisj hx (hEq ▸ (by simp))) hne
        · intro x hx
          refine h1prv_other x ?_ ?_
          · rw [hBnil]
            exact fun hEq => hdisj (List.mem_cons_of_mem _ hx) (hEq ▸ (by simp))
          · exact fun hEq => (List.nodup_cons.1 hndA).1 (hEq ▸ hx)
      | cons t nsB' =>
        have hBt : h.nxt hdB = t := hchB.1.1
        rw [chainR_append_cons]
        constructor
        · refine chainR_retarget hchA hndA (by rw [h1nxt_a, hBt]) ?_ ?_ ?_
          · have h9 := h1prv_bn
            rw [hBt] at h9
            exact h9
          · intro x hx hne
            exact h1nxt_other x (fun hEq => hdisj hx (hEq ▸ (by simp))) hne
          · intro x hx
            refine h1prv_other x ?_
              (fun hEq => (List.nodup_cons.1 hndA).1 (hEq ▸ hx))
            rw [hBt]
            exact fun hEq => hdisj (List.mem_cons_of_mem _ hx)
              (hEq ▸ List.mem_cons_of_mem _ (by simp))
        · refine chainR_frame hchB.2 ?_ ?_
          · intro x hx
            have hxB : x ∈ hdB :: t :: nsB' := List.mem_cons_of_mem _ hx
            refine h1nxt_other x ?_ ?_
            · exact fun hEq => (List.nodup_cons.1 hndB).1 (hEq ▸ hx)
            · exact fun hEq => hdisj (hEq ▸ haA) hxB
          · intro x hx
            simp only [List.mem_append, List.mem_singleton] at hx
            have hxB : x ∈ hdB :: t :: nsB' := by
              rcases hx with h1 | h1
              · exact List.mem_cons_of_mem _ (List.mem_cons_of_mem _ h1)
              · rw [h1]; simp
            refine h1prv_other x ?_
              (fun hEq => hdisj (by rw [hEq]; simp) hxB)
            rw [hBt]
            have hndBt : (t :: nsB').Nodup := (List.nodup_cons.1 hndB).2
            rcases hx with h1 | h1
            · exact fun hEq => (List.nodup_cons.1 hndBt).1 (hEq ▸ h1)
            · rw [h1]
              exact fun hEq => (List.nodup_cons.1 hndB).1 (hEq ▸ (by simp))
    · exact ⟨h1nxt_hdB, h1prv_hdA⟩
  have hmidnodup : (hdA :: ((nsA ++ nsB) ++ hdB :: [])).Nodup := by
    have hperm : ((nsA ++ nsB) ++ hdB :: []).Perm (nsA ++ hdB :: nsB) := by
      rw [List.append_assoc]
      exact List.Perm.append_left nsA (List.perm_append_singleton hdB nsB)
    have hperm2 : (hdA :: ((nsA ++ nsB) ++ hdB :: [])).Perm
        ((hdA :: nsA) ++ (hdB :: nsB)) := List.Perm.cons hdA hperm
    refine (List.Perm.nodup_iff hperm2).2 ?_
    exact List.nodup_append.2 ⟨hndA, hndB, hdisj⟩
  have hrem := chainR_removeMid hmid hmidnodup
  have hlenA : nsA.length = vsA.length := valsOk_length hvsA
  refine ⟨by simpa using hrem, ?_, ?_, ?_, ?_⟩
  · have hsub : (hdA :: (nsA ++ nsB)).Sublist (hdA :: ((nsA ++ nsB) ++ hdB :: [])) :=
      List.Sublist.cons₂ hdA (List.sublist_append_left _ _)
    exact List.Nodup.sublist hsub hmidnodup
  · intro x hx
    show x < h.alloc
    rcases List.mem_cons.1 hx with hEq | h1
    · exact hEq ▸ hbdA hdA (by simp)
    · rcases List.mem_append.1 h1 with h2 | h2
      · exact hbdA x (List.mem_cons_of_mem _ h2)
      · exact hbdB x (List.mem_cons_of_mem _ h2)
  · show h.val hdA = none
    exact hvhA
  · rw [valsOk_append nsB vsB hlenA]
    constructor
    · exact valsOk_frame hvsA (fun x _ => rfl)
    · exact valsOk_frame hvsB (fun x _ => rfl)

/-! Helper lemmas about getLastD and list positions. -/

theorem getLastD_concat_nat (a w : Nat) (l : List Nat) :
    (l ++ [w]).getLastD a = w := by
  induction l generalizing a with
  | nil => rfl
  | cons c l ih =>
    rw [List.cons_append, List.getLastD_cons]
    exact ih c

theorem getLastD_mem_of_ne_nil : ∀ (l : List Nat) (a : Nat), l ≠ [] → l.getLastD a ∈ l
  | [], _, hne => absurd rfl hne
  | [b], _, _ => by simp
  | b :: c :: l, a, _ => by
    rw [List.getLastD_cons]
    exact List.mem_cons_of_mem b (getLastD_mem_of_ne_nil (c :: l) b (by simp))

theorem getLastD_cons_ne (c : Nat) (l : List Nat) (a b : Nat) :
    (c :: l).getLastD a = (c :: l).getLastD b := by
  rw [List.getLastD_cons, List.getLastD_cons]

/-! Consequences of the representation predicates. -/

theorem repC_length_eq {α : Type} {h : Heap α} {s : ListSt} {vs1 vs2 : List α}
    (hr : RepC h s vs1 vs2) : s.length = ((vs1 ++ vs2).length : Int) := by
  obtain ⟨_, _, _, _, hL, _, _⟩ := hr
  exact hL

theorem repC_index_eq {α : Type} {h : Heap α} {s : ListSt} {vs1 vs2 : List α}
    (hr : RepC h s vs1 vs2) : s.index = (vs1.length : Int) := by
  obtain ⟨_, _, _, _, _, hI, _⟩ := hr
  exact hI

theorem repC_val_hd {α : Type} {h : Heap α} {s : ListSt} {vs2 : List α}
    (hr : RepC h s [] vs2) : ListSt.val h s = none := by
  obtain ⟨ns1, ns2, hring, hlen, hL, hI, hW⟩ := hr
  have hns1 : ns1 = [] := List.length_eq_zero.1 (by simpa using hlen)
  subst hns1
  show h.val s.win = none
  rw [hW]
  exact hring.hval

theorem repC_val_at {α : Type} {h : Heap α} {s : ListSt} {vs1 vs2 : List α} {x : α}
    (hr : RepC h s (vs1 ++ [x]) vs2) : ListSt.val h s = some x := by
  obtain ⟨ns1, ns2, hring, hlen, hL, hI, hW⟩ := hr
  have hlen1 : ns1.length = vs1.length + 1 := by simpa using hlen
  have hlenv : (ns1 ++ ns2).length = ((vs1 ++ [x]) ++ vs2).length :=
    valsOk_length hring.vals
  have hgd : s.win = (ns1 ++ ns2).getD vs1.length 0 := by
    rw [hW, getLastD_eq_getD s.header ns1 ns2]
    have : (s.header :: (ns1 ++ ns2)).getD ns1.length 0
        = (ns1 ++ ns2).getD (ns1.length - 1) 0 := by
      rw [hlen1]
      simp
    rw [this, hlen1]
    simp
  have hlt : vs1.length < (ns1 ++ ns2).length := by
    have h9 := hlenv
    simp only [List.length_append, List.length_cons, List.length_nil] at h9
    simp only [List.length_append]
    omega
  show h.val s.win = some x
  rw [hgd, valsOk_getD vs1.length hring.vals hlt]
  rw [List.getElem?_append_left (by simp)]
  simp

theorem repC_cursorInv {α : Type} {h : Heap α} {s : ListSt} {vs1 vs2 : List α}
    (hr : RepC h s vs1 vs2) : CursorInv s := by
  obtain ⟨ns1, ns2, hring, hlen, hL, hI, hW⟩ := hr
  refine ⟨by rw [hI]; exact Int.ofNat_nonneg _, ?_, ?_⟩
  · rw [hI, hL]
    simp
  · constructor
    · intro h0
      have hv : vs1.length = 0 := by omega
      have hns1 : ns1 = [] := List.length_eq_zero.1 (by omega)
      rw [hW, hns1]
      rfl
    · intro hwin
      by_contra hne
      have hv1 : vs1 ≠ [] := by
        intro hEq
        rw [hEq] at hI
        simp at hI
        exact hne hI
      have hns1 : ns1 ≠ [] := by
        intro hEq
        rw [hEq] at hlen
        exact hv1 (List.length_eq_zero.1 hlen.symm)
      have hmem : s.win ∈ ns1 := by
        rw [hW]
        exact getLastD_mem_of_ne_nil ns1 s.header hns1
      have : s.header ∈ ns1 ++ ns2 := hwin ▸ List.mem_append_left _ hmem
      exact (List.nodup_cons.1 hring.nodup).1 this

theorem repC_repW {α : Type} {h : Heap α} {s : ListSt} {vs1 vs2 : List α}
    (hr : RepC h s vs1 vs2) : RepW h s (vs1 ++ vs2) := by
  obtain ⟨ns1, ns2, hring, hlen, hL, hI, hW⟩ := hr
  refine ⟨ns1 ++ ns2, hring, ?_, hL⟩
  rcases List.eq_nil_or_concat ns1 with hEq | ⟨l, w, hEq⟩
  · rw [hW, hEq]
    simp
  · rw [List.concat_eq_append] at hEq
    rw [hW, hEq, getLastD_concat_nat]
    exact List.mem_cons_of_mem _ (List.mem_append_left _ (by simp))

/-- The freshly constructed list is a valid empty list. -/
theorem mkList_repC {α : Type} (h : Heap α) :
    RepC (mkList h).1 (mkList h).2 ([] : List α) [] := by
  refine ⟨[], [], ⟨⟨?_, ?_⟩, by simp, ?_, ?_, trivial⟩, rfl, rfl, rfl, rfl⟩
  · show (allocNode h none).1.nxt h.alloc = h.alloc
    simp
  · show (allocNode h none).1.prv h.alloc = h.alloc
    simp
  · intro x hx
    simp at hx
    subst hx
    show h.alloc < h.alloc + 1
    omega
  · show (allocNode h none).1.val h.alloc = none
    simp

/-! Specifications of the List operations on well-formed states. -/

/-- insert places the new value immediately after the cursor and leaves
the cursor where it was. -/
theorem insert_spec {α : Type} {h : Heap α} {s : ListSt} {vs1 vs2 : List α}
    (hr : RepC h s vs1 vs2) (v : α) :
    RepC (ListSt.insert h s v).1 (ListSt.insert h s v).2 vs1 (v :: vs2) := by
  obtain ⟨ns1, ns2, hring, hlen, hL, hI, hW⟩ := hr
  have hins := ringOf_insertAfter hring hlen v
  refine ⟨ns1, h.alloc :: ns2, ?_, hlen, ?_, ?_, ?_⟩
  · show RingOf (ListNode.insert (allocNode h (some v)).1 s.win
      (allocNode h (some v)).2) s.header (ns1 ++ h.alloc :: ns2) (vs1 ++ v :: vs2)
    rw [hW]
    exact hins
  · show s.length + 1 = ((vs1 ++ v :: vs2).length : Int)
    rw [hL]
    simp
    omega
  · exact hI
  · exact hW

/-- prepend with the cursor on the header: the value becomes the first
element and the cursor stays on the header. -/
theorem prepend_spec_hd {α : Type} {h : Heap α} {s : ListSt} {vs2 : List α}
    (hr : RepC h s [] vs2) (v : α) :
    RepC (ListSt.prepend h s v).1 (ListSt.prepend h s v).2 [] (v :: vs2) := by
  obtain ⟨ns1, ns2, hring, hlen, hL, hI, hW⟩ := hr
  have hns1 : ns1 = [] := List.length_eq_zero.1 (by simpa using hlen)
  subst hns1
  have hins := ringOf_insertAfter hring hlen v
  refine ⟨[], h.alloc :: ns2, ?_, rfl, ?_, ?_, ?_⟩
  · exact hins
  · show s.length + 1 = ((v :: vs2).length : Int)
    rw [hL]
    simp
  · show (if 0 < s.index then s.index + 1 else s.index) = 0
    rw [hI]
    simp
  · exact hW

/-- prepend with the cursor on an element: the value becomes the first
element, the cursor window is unchanged and its index grows by one. -/
theorem prepend_spec_mid {α : Type} {h : Heap α} {s : ListSt} {x : α}
    {vs1 vs2 : List α} (hr : RepC h s (x :: vs1) vs2) (v : α) :
    RepC (ListSt.prepend h s v).1 (ListSt.prepend h s v).2 (v :: x :: vs1) vs2 := by
  obtain ⟨ns1, ns2, hring, hlen, hL, hI, hW⟩ := hr
  have hring0 : RingOf h s.header ([] ++ (ns1 ++ ns2)) ([] ++ ((x :: vs1) ++ vs2)) :=
    hring
  have hins := ringOf_insertAfter hring0 rfl v
  have hns1 : ns1 ≠ [] := by
    intro hEq
    rw [hEq] at hlen
    simp at hlen
  obtain ⟨e, ns1', hEq⟩ := List.exists_cons_of_ne_nil hns1
  subst hEq
  refine ⟨h.alloc :: e :: ns1', ns2, ?_, ?_, ?_, ?_, ?_⟩
  · exact hins
  · simpa using hlen
  · show s.length + 1 = (((v :: x :: vs1) ++ vs2).length : Int)
    rw [hL]
    simp
  · show (if 0 < s.index then s.index + 1 else s.index) = _
    rw [hI]
    simp
  · show s.win = (h.alloc :: e :: ns1').getLastD s.header
    rw [hW, List.getLastD_cons, List.getLastD_cons, List.getLastD_cons]

/-- append places the new value at the end of the list and leaves the
cursor untouched. -/
theorem append_spec {α : Type} {h : Heap α} {s : ListSt} {vs1 vs2 : List α}
    (hr : RepC h s vs1 vs2) (v : α) :
    RepC (ListSt.append h s v).1 (ListSt.append h s v).2 vs1 (vs2 ++ [v]) := by
  obtain ⟨ns1, ns2, hring, hlen, hL, hI, hW⟩ := hr
  have hring0 : RingOf h s.header ((ns1 ++ ns2) ++ []) ((vs1 ++ vs2) ++ []) := by
    simpa using hring
  have hlen0 : (ns1 ++ ns2).length = (vs1 ++ vs2).length := valsOk_length hring.vals
  have hins := ringOf_insertAfter hring0 hlen0 v
  have hhd : s.header ≠ h.alloc :=
    fun hEq => lt_irrefl h.alloc (hEq ▸ hring.bound s.header (by simp))
  have hprv : (allocNode h (some v)).1.prv s.header
      = (ns1 ++ ns2).getLastD s.header := by
    rw [allocNode_prv, if_neg hhd]
    exact chainR_prv_last hring.chain
  refine ⟨ns1, ns2 ++ [h.alloc], ?_, hlen, ?_, ?_, ?_⟩
  · show RingOf (ListNode.insert (allocNode h (some v)).1
      ((allocNode h (some v)).1.prv s.header) (allocNode h (some v)).2)
      s.header (ns1 ++ (ns2 ++ [h.alloc])) (vs1 ++ (vs2 ++ [v]))
    rw [hprv, ← List.append_assoc, ← List.append_assoc]
    simpa using hins
  · show s.length + 1 = ((vs1 ++ (vs2 ++ [v])).length : Int)
    rw [hL]
    simp
    omega
  · exact hI
  · exact hW

/-- remove with the cursor parked on the header fails and changes nothing. -/
theorem remove_spec_hd {α : Type} {h : Heap α} {s : ListSt} {vs2 : List α}
    (hr : RepC h s [] vs2) :
    ListSt.remove h s = (none, h, s) := by
  obtain ⟨ns1, ns2, hring, hlen, hL, hI, hW⟩ := hr
  have hns1 : ns1 = [] := List.length_eq_zero.1 (by simpa using hlen)
  subst hns1
  have hwin : s.win = s.header := hW
  simp [ListSt.remove, hwin]

/-- remove with the cursor on the last element of vs1 ++ [x] returns x,
deletes exactly that element and moves the cursor one step back. -/
theorem remove_spec {α : Type} {h : Heap α} {s : ListSt} {vs1 vs2 : List α} {x : α}
    (hr : RepC h s (vs1 ++ [x]) vs2) :
    (ListSt.remove h s).1 = some x ∧
    RepC (ListSt.remove h s).2.1 (ListSt.remove h s).2.2 vs1 vs2 := by
  have hval := repC_val_at hr
  obtain ⟨ns1, ns2, hring, hlen, hL, hI, hW⟩ := hr
  have hlen1 : ns1.length = vs1.length + 1 := by simpa using hlen
  have hns1ne : ns1 ≠ [] := by
    intro hEq
    rw [hEq] at hlen1
    simp at hlen1
  obtain ⟨ns1', w, hEq⟩ := List.eq_nil_or_concat ns1 |>.resolve_left hns1ne
  rw [List.concat_eq_append] at hEq
  subst hEq
  have hwin : s.win = w := by rw [hW, getLastD_concat_nat]
  have hwmem : w ∈ (ns1' ++ [w]) ++ ns2 :=
    List.mem_append_left _ (List.mem_append_right _ (by simp))
  have hne : s.win ≠ s.header := by
    rw [hwin]
    intro hEq
    exact (List.nodup_cons.1 hring.nodup).1 (hEq ▸ hwmem)
  have hred : ListSt.remove h s = (h.val s.win,
      ListNode.remove h (h.nxt (h.prv s.win)),
      { s with win := h.prv s.win, index := s.index - 1, length := s.length - 1 }) := by
    simp only [ListSt.remove, if_neg hne]
  have hringS : RingOf h s.header (ns1' ++ w :: ns2) (vs1 ++ x :: vs2) := by
    have h1 : (ns1' ++ [w]) ++ ns2 = ns1' ++ w :: ns2 := by
      rw [List.append_assoc]
      rfl
    have h2 : (vs1 ++ [x]) ++ vs2 = vs1 ++ x :: vs2 := by
      rw [List.append_assoc]
      rfl
    rw [h1, h2] at hring
    exact hring
  have hsp := (chainR_append_cons ns1' s.header w ns2 s.header).1 hringS.chain
  have hprvw : h.prv w = ns1'.getLastD s.header := chainR_prv_last hsp.1
  have hnxtp : h.nxt (ns1'.getLastD s.header) = w := chainR_nxt_last hsp.1
  have hlen' : ns1'.length = vs1.length := by
    simp only [List.length_append, List.length_cons, List.length_nil] at hlen1
    omega
  have hrem := ringOf_removeMid hringS hlen'
  have htarget : h.nxt (h.prv s.win) = w := by
    rw [hwin, hprvw, hnxtp]
  rw [hred]
  constructor
  · exact hval
  · refine ⟨ns1', ns2, ?_, hlen', ?_, ?_, ?_⟩
    · show RingOf (ListNode.remove h (h.nxt (h.prv s.win))) s.header
        (ns1' ++ ns2) (vs1 ++ vs2)
      rw [htarget]
      exact hrem
    · show s.length - 1 = ((vs1 ++ vs2).length : Int)
      rw [hL]
      simp only [List.length_append, List.length_cons, List.length_nil]
      push_cast
      omega
    · show s.index - 1 = (vs1.length : Int)
      rw [hI]
      simp only [List.length_append, List.length_cons, List.length_nil]
      push_cast
      omega
    · show h.prv s.win = ns1'.getLastD s.header
      rw [hwin, hprvw]

/-- val(newValue) with the cursor parked on the header fails and changes
nothing. -/
theorem valPut_spec_hd {α : Type} {h : Heap α} {s : ListSt} {vs2 : List α}
    (hr : RepC h s [] vs2) (v : α) :
    ListSt.valPut h s v = (none, h, s) := by
  obtain ⟨ns1, ns2, hring, hlen, hL, hI, hW⟩ := hr
  have hns1 : ns1 = [] := List.length_eq_zero.1 (by simpa using hlen)
  subst hns1
  have hwin : s.win = s.header := hW
  simp [ListSt.valPut, hwin]

/-- val(newValue) with the cursor on the last element of vs1 ++ [x]
returns x and overwrites that element with the new value. -/
theorem valPut_spec {α : Type} {h : Heap α} {s : ListSt} {vs1 vs2 : List α} {x : α}
    (hr : RepC h s (vs1 ++ [x]) vs2) (v : α) :
    (ListSt.valPut h s v).1 = some x ∧
    RepC (ListSt.valPut h s v).2.1 (ListSt.valPut h s v).2.2 (vs1 ++ [v]) vs2 := by
  have hval := repC_val_at hr
  obtain ⟨ns1, ns2, hring, hlen, hL, hI, hW⟩ := hr
  have hlen1 : ns1.length = vs1.length + 1 := by simpa using hlen
  have hns1ne : ns1 ≠ [] := by
    intro hEq
    rw [hEq] at hlen1
    simp at hlen1
  obtain ⟨ns1', w, hEq⟩ := List.eq_nil_or_concat ns1 |>.resolve_left hns1ne
  rw [List.concat_eq_append] at hEq
  subst hEq
  have hwin : s.win = w := by rw [hW, getLastD_concat_nat]
  have hwmem : w ∈ (ns1' ++ [w]) ++ ns2 :=
    List.mem_append_left _ (List.mem_append_right _ (by simp))
  have hne : s.win ≠ s.header := by
    rw [hwin]
    intro hEq
    exact (List.nodup_cons.1 hring.nodup).1 (hEq ▸ hwmem)
  have hhd : s.header ≠ w := by
    intro hEq
    exact (List.nodup_cons.1 hring.nodup).1 (hEq ▸ hwmem)
  have hred : ListSt.valPut h s v = (h.val s.win, setVal h s.win (some v), s) := by
    simp only [ListSt.valPut, if_neg hne]
  have hlen' : ns1'.length = vs1.length := by
    simp only [List.length_append, List.length_cons, List.length_nil] at hlen1
    omega
  have hnodup' : ((ns1' ++ [w]) ++ ns2).Nodup := (List.nodup_cons.1 hring.nodup).2
  have hw_notin1 : w ∉ ns1' := by
    have hdisj := List.disjoint_of_nodup_append
      (List.Nodup.sublist (List.sublist_append_left _ _) hnodup')
    exact fun hmem => hdisj hmem (by simp)
  have hw_notin2 : w ∉ ns2 := by
    have h9 : (ns1' ++ ([w] ++ ns2)).Nodup := by
      rw [← List.append_assoc]
      exact hnodup'
    have h10 : ([w] ++ ns2).Nodup :=
      List.Nodup.sublist (List.sublist_append_right ns1' _) h9
    exact (List.nodup_cons.1 (by simpa using h10)).1
  obtain ⟨hchain, hnodup, hbound, hhval, hvals⟩ := hring
  rw [hred]
  constructor
  · exact hval
  · refine ⟨ns1' ++ [w], ns2, ?_, by simpa using hlen', ?_, ?_, ?_⟩
    · show RingOf (setVal h s.win (some v)) s.header ((ns1' ++ [w]) ++ ns2)
        ((vs1 ++ [v]) ++ vs2)
      rw [hwin]
      refine ⟨?_, hnodup, ?_, ?_, ?_⟩
      · exact chainR_frame hchain (fun y _ => rfl) (fun y _ => rfl)
      · intro y hy
        show y < h.alloc
        exact hbound y hy
      · show (setVal h w (some v)).val s.header = none
        rw [setVal_val, if_neg hhd]
        exact hhval
      · have hvals' : valsOk h (ns1' ++ ([w] ++ ns2)) (vs1 ++ ([x] ++ vs2)) := by
          rw [← List.append_assoc, ← List.append_assoc]
          exact hvals
        have hsplit1 := (valsOk_append ([w] ++ ns2) ([x] ++ vs2) hlen').1 hvals'
        have hvns2 : valsOk h ns2 vs2 := hsplit1.2.2
        have hnew : ∀ y, y ≠ w → (setVal h w (some v)).val y = h.val y := by
          intro y hy
          rw [setVal_val, if_neg hy]
        rw [List.append_assoc, List.append_assoc]
        rw [valsOk_append ([w] ++ ns2) ([v] ++ vs2) hlen']
        refine ⟨valsOk_frame hsplit1.1 (fun y hy => hnew y
          (fun hEq => hw_notin1 (hEq ▸ hy))), ?_, ?_⟩
        · show (setVal h w (some v)).val w = some v
          rw [setVal_val, if_pos rfl]
        · exact valsOk_frame hvns2 (fun y hy => hnew y
            (fun hEq => hw_notin2 (hEq ▸ hy)))
    · show s.length = (((vs1 ++ [v]) ++ vs2).length : Int)
      rw [hL]
      simp
    · show s.index = ((vs1 ++ [v]).length : Int)
      rw [hI]
      simp
    · show s.win = (ns1' ++ [w]).getLastD s.header
      rw [hwin, getLastD_concat_nat]

/-- next with elements remaining ahead focuses the next element and
returns its value. -/
theorem next_spec_mid {α : Type} {h : Heap α} {s : ListSt} {vs1 vs2 : List α} {d : α}
    (hr : RepC h s vs1 (d :: vs2)) :
    (ListSt.next h s).1 = some d ∧
    RepC (ListSt.next h s).2.1 (ListSt.next h s).2.2 (vs1 ++ [d]) vs2 := by
  obtain ⟨ns1, ns2, hring, hlen, hL, hI, hW⟩ := hr
  have hlenv := valsOk_length hring.vals
  have hlen2 : ns2.length = vs2.length + 1 := by
    simp only [List.length_append, List.length_cons] at hlenv
    omega
  have hns2ne : ns2 ≠ [] := by
    intro hEq
    rw [hEq] at hlen2
    simp at hlen2
  obtain ⟨e, ns2', hEq⟩ := List.exists_cons_of_ne_nil hns2ne
  subst hEq
  have hsp := (chainR_append_cons ns1 s.header e ns2' s.header).1 hring.chain
  have hnxtw : h.nxt s.win = e := by
    rw [hW]
    exact chainR_nxt_last hsp.1
  have hvsplit := (valsOk_append (e :: ns2') (d :: vs2) hlen).1 hring.vals
  have hve : h.val e = some d := hvsplit.2.1
  have hnoreset : ¬ s.length < s.index + 1 := by
    rw [hL, hI]
    simp only [List.length_append, List.length_cons]
    push_cast
    omega
  constructor
  · show h.val (h.nxt s.win) = some d
    rw [hnxtw, hve]
  · refine ⟨ns1 ++ [e], ns2', ?_, ?_, ?_, ?_, ?_⟩
    · show RingOf h s.header ((ns1 ++ [e]) ++ ns2') ((vs1 ++ [d]) ++ vs2)
      have h1 : (ns1 ++ [e]) ++ ns2' = ns1 ++ e :: ns2' := by
        rw [List.append_assoc]
        rfl
      have h2 : (vs1 ++ [d]) ++ vs2 = vs1 ++ d :: vs2 := by
        rw [List.append_assoc]
        rfl
      rw [h1, h2]
      exact hring
    · simp [hlen]
    · show s.length = (((vs1 ++ [d]) ++ vs2).length : Int)
      rw [hL]
      simp
    · show (if s.length < s.index + 1 then 0 else s.index + 1)
        = ((vs1 ++ [d]).length : Int)
      rw [if_neg hnoreset, hI]
      simp
    · show h.nxt s.win = (ns1 ++ [e]).getLastD s.header
      rw [hnxtw, getLastD_concat_nat]

/-- next with the cursor on the last element steps onto the header and
resets the index to zero. -/
theorem next_spec_end {α : Type} {h : Heap α} {s : ListSt} {vs1 : List α}
    (hr : RepC h s vs1 []) :
    (ListSt.next h s).1 = none ∧
    RepC (ListSt.next h s).2.1 (ListSt.next h s).2.2 [] vs1 := by
  obtain ⟨ns1, ns2, hring, hlen, hL, hI, hW⟩ := hr
  have hlenv := valsOk_length hring.vals
  have hns2 : ns2 = [] := by
    refine List.length_eq_zero.1 ?_
    simp only [List.length_append, List.length_nil] at hlenv
    omega
  subst hns2
  have hchain : chainR h s.header ns1 s.header := by simpa using hring.chain
  have hnxtw : h.nxt s.win = s.header := by
    rw [hW]
    exact chainR_nxt_last hchain
  have hreset : s.length < s.index + 1 := by
    rw [hL, hI]
    simp
  constructor
  · show h.val (h.nxt s.win) = none
    rw [hnxtw]
    exact hring.hval
  · refine ⟨[], ns1 ++ [], ?_, rfl, ?_, ?_, ?_⟩
    · simpa using hring
    · show s.length = ((([] : List α) ++ vs1).length : Int)
      rw [hL]
      simp
    · show (if s.length < s.index + 1 then 0 else s.index + 1)
        = ((([] : List α)).length : Int)
      rw [if_pos hreset]
      simp
    · show h.nxt s.win = ([] : List Nat).getLastD s.header
      rw [hnxtw]
      rfl

/-- prev with the cursor on the header wraps to the last element. -/
theorem prev_spec_hd {α : Type} {h : Heap α} {s : ListSt} {vs2 : List α}
    (hr : RepC h s [] vs2) :
    RepC (ListSt.prev h s).2.1 (ListSt.prev h s).2.2 vs2 [] := by
  obtain ⟨ns1, ns2, hring, hlen, hL, hI, hW⟩ := hr
  have hns1 : ns1 = [] := List.length_eq_zero.1 (by simpa using hlen)
  subst hns1
  have hwin : s.win = s.header := hW
  have hchain : chainR h s.header ns2 s.header := by simpa using hring.chain
  have hprvw : h.prv s.win = ns2.getLastD s.header := by
    rw [hwin]
    exact chainR_prv_last hchain
  have hwrap : s.index - 1 < 0 := by
    rw [hI]
    simp
  refine ⟨ns2, [], ?_, ?_, ?_, ?_, ?_⟩
  · simpa using hring
  · have h9 := valsOk_length hring.vals
    simpa using h9
  · have hpl : (ListSt.prev h s).2.2.length = s.length := rfl
    rw [hpl, hL]
    simp
  · have hpi : (ListSt.prev h s).2.2.index
        = (if s.index - 1 < 0 then s.length + (s.index - 1) + 1 else s.index - 1) := rfl
    rw [hpi, if_pos hwrap, hL, hI]
    simp
  · have hpw : (ListSt.prev h s).2.2.win = h.prv s.win := rfl
    rw [hpw, hprvw]
    rfl

/-- prev with the cursor on an element steps one position back. -/
theorem prev_spec_mid {α : Type} {h : Heap α} {s : ListSt} {vs1 vs2 : List α} {x : α}
    (hr : RepC h s (vs1 ++ [x]) vs2) :
    RepC (ListSt.prev h s).2.1 (ListSt.prev h s).2.2 vs1 (x :: vs2) := by
  obtain ⟨ns1, ns2, hring, hlen, hL, hI, hW⟩ := hr
  have hlen1 : ns1.length = vs1.length + 1 := by simpa using hlen
  have hns1ne : ns1 ≠ [] := by
    intro hEq
    rw [hEq] at hlen1
    simp at hlen1
  obtain ⟨ns1', w, hEq⟩ := List.eq_nil_or_concat ns1 |>.resolve_left hns1ne
  rw [List.concat_eq_append] at hEq
  subst hEq
  have hwin : s.win = w := by rw [hW, getLastD_concat_nat]
  have hringS : RingOf h s.header (ns1' ++ w :: ns2) (vs1 ++ x :: vs2) := by
    have h1 : (ns1' ++ [w]) ++ ns2 = ns1' ++ w :: ns2 := by
      rw [List.append_assoc]
      rfl
    have h2 : (vs1 ++ [x]) ++ vs2 = vs1 ++ x :: vs2 := by
      rw [List.append_assoc]
      rfl
    rw [h1, h2] at hring
    exact hring
  have hsp := (chainR_append_cons ns1' s.header w ns2 s.header).1 hringS.chain
  have hprvw : h.prv s.win = ns1'.getLastD s.header := by
    rw [hwin]
    exact chainR_prv_last hsp.1
  have hlen' : ns1'.length = vs1.length := by
    simp only [List.length_append, List.length_cons, List.length_nil] at hlen1
    omega
  have hnowrap : ¬ s.index - 1 < 0 := by
    rw [hI]
    simp only [List.length_append, List.length_cons, List.length_nil]
    push_cast
    omega
  refine ⟨ns1', w :: ns2, ?_, hlen', ?_, ?_, ?_⟩
  · exact hringS
  · show s.length = ((vs1 ++ x :: vs2).length : Int)
    rw [hL]
    simp
  · show (if s.index - 1 < 0 then s.length + (s.index - 1) + 1 else s.index - 1)
      = ((vs1).length : Int)
    rw [if_neg hnowrap, hI]
    simp only [List.length_append, List.length_cons, List.length_nil]
    push_cast
    omega
  · exact hprvw

/-- first on a nonempty list focuses the first element and returns its
value. -/
theorem first_spec {α : Type} {h : Heap α} {s : ListSt} {vs1 vs2 : List α}
    {d : α} {rest : List α} (hr : RepC h s vs1 vs2) (hvs : vs1 ++ vs2 = d :: rest) :
    (ListSt.first h s).1 = some d ∧
    RepC (ListSt.first h s).2.1 (ListSt.first h s).2.2 [d] rest := by
  obtain ⟨ns1, ns2, hring, hlen, hL, hI, hW⟩ := hr
  rw [hvs] at hring
  have hlenv := valsOk_length hring.vals
  have hnsne : ns1 ++ ns2 ≠ [] := by
    intro hEq
    rw [hEq] at hlenv
    simp at hlenv
  obtain ⟨e, ns', hEq⟩ := List.exists_cons_of_ne_nil hnsne
  rw [hEq] at hring
  have hnxthd : h.nxt s.header = e := hring.chain.1.1
  have hve : h.val e = some d := hring.vals.1
  constructor
  · show h.val (h.nxt s.header) = some d
    rw [hnxthd, hve]
  · refine ⟨[e], ns', ?_, rfl, ?_, ?_, ?_⟩
    · show RingOf h s.header ([e] ++ ns') ([d] ++ rest)
      exact hring
    · show s.length = (([d] ++ rest).length : Int)
      rw [hL, hvs]
      simp
    · rfl
    · show h.nxt s.header = ([e]).getLastD s.header
      rw [hnxthd]
      rfl

/-- first on an empty list parks the window on the header but still sets
the index to 1. -/
theorem first_spec_empty {α : Type} {h : Heap α} {s : ListSt}
    (hr : RepC h s ([] : List α) []) :
    ListSt.first h s = (none, h, { s with win := s.header, index := 1 }) := by
  obtain ⟨ns1, ns2, hring, hlen, hL, hI, hW⟩ := hr
  have hns1 : ns1 = [] := List.length_eq_zero.1 (by simpa using hlen)
  have hns2 : ns2 = [] := by
    have hlenv := valsOk_length hring.vals
    subst hns1
    simpa using List.length_eq_zero.1 (by simpa using hlenv)
  subst hns1
  subst hns2
  have hnxthd : h.nxt s.header = s.header := hring.chain.1
  show (h.val (h.nxt s.header), h, _) = _
  rw [hnxthd]
  exact congrArg (fun o => (o, h, { s with win := s.header, index := 1 })) hring.hval

/-- last jumps the cursor to the final element (the header on an empty
list) and returns its value (absent on an empty list). -/
theorem last_spec {α : Type} {h : Heap α} {s : ListSt} {vs1 vs2 : List α}
    (hr : RepC h s vs1 vs2) :
    (ListSt.last h s).1 = (vs1 ++ vs2).getLast? ∧
    RepC (ListSt.last h s).2.1 (ListSt.last h s).2.2 (vs1 ++ vs2) [] := by
  obtain ⟨ns1, ns2, hring, hlen, hL, hI, hW⟩ := hr
  have hlenv := valsOk_length hring.vals
  have hprvhd : h.prv s.header = (ns1 ++ ns2).getLastD s.header :=
    chainR_prv_last hring.chain
  have hrep : RepC h { s with win := h.prv s.header, index := s.length }
      (vs1 ++ vs2) [] := by
    refine ⟨ns1 ++ ns2, [], ?_, hlenv, ?_, ?_, ?_⟩
    · show RingOf h s.header ((ns1 ++ ns2) ++ []) ((vs1 ++ vs2) ++ [])
      simpa using hring
    · show s.length = (((vs1 ++ vs2) ++ []).length : Int)
      rw [hL]
      simp
    · show s.length = (((vs1 ++ vs2)).length : Int)
      exact hL
    · show h.prv s.header = (ns1 ++ ns2).getLastD s.header
      exact hprvhd
  constructor
  · show h.val (h.prv s.header) = (vs1 ++ vs2).getLast?
    rcases List.eq_nil_or_concat (vs1 ++ vs2) with hEq | ⟨m, y, hEq⟩
    · rw [hEq] at hrep
      have := repC_val_hd hrep
      show ListSt.val h { s with win := h.prv s.header, index := s.length } =
        (vs1 ++ vs2).getLast?
      rw [this, hEq]
      rfl
    · rw [List.concat_eq_append] at hEq
      rw [hEq] at hrep
      have := repC_val_at hrep
      show ListSt.val h { s with win := h.prv s.header, index := s.length } =
        (vs1 ++ vs2).getLast?
      rw [this, hEq, List.getLast?_concat]
  · exact hrep

/-- GetAt rejects out-of-range positions before touching any state. -/
theorem getAt_oob {α : Type} (h : Heap α) (s : ListSt) (pt : Int)
    (hp : pt < 1 ∨ s.length < pt) :
    ListSt.GetAt h s pt = (none, h, s) := by
  simp only [ListSt.GetAt, if_pos hp]

/-- GetAt on a valid position returns the value stored there and moves
the cursor to that position, walking from the current cursor location. -/
theorem getAt_spec {α : Type} {h : Heap α} {s : ListSt} {vs1 vs2 : List α}
    (hr : RepC h s vs1 vs2) (pt : Int) (h1 : 1 ≤ pt)
    (h2 : pt ≤ ((vs1 ++ vs2).length : Int)) :
    (ListSt.GetAt h s pt).1 = (vs1 ++ vs2)[pt.toNat - 1]? ∧
    RepC (ListSt.GetAt h s pt).2.1 (ListSt.GetAt h s pt).2.2
      ((vs1 ++ vs2).take pt.toNat) ((vs1 ++ vs2).drop pt.toNat) := by
  obtain ⟨ns1, ns2, hring, hlen, hL, hI, hW⟩ := hr
  have hn : (ns1 ++ ns2).length = (vs1 ++ vs2).length := valsOk_length hring.vals
  have hn1 : ns1.length ≤ (ns1 ++ ns2).length := by
    rw [List.length_append]
    omega
  have hk1 : 1 ≤ pt.toNat := by omega
  have hkn : pt.toNat ≤ (vs1 ++ vs2).length := by omega
  have hguard : ¬ (pt < 1 ∨ s.length < pt) := by
    rw [hL]
    omega
  have hwin : s.win = (s.header :: (ns1 ++ ns2)).getD ns1.length 0 := by
    rw [hW]
    exact getLastD_eq_getD s.header ns1 ns2
  have hval_at : ∀ w : Nat, w = (s.header :: (ns1 ++ ns2)).getD pt.toNat 0 →
      h.val w = (vs1 ++ vs2)[pt.toNat - 1]? := by
    intro w hw
    have hgd : (s.header :: (ns1 ++ ns2)).getD pt.toNat 0
        = (ns1 ++ ns2).getD (pt.toNat - 1) 0 := by
      match pt.toNat, hk1 with
      | Nat.succ m, _ => simp
    rw [hw, hgd, valsOk_getD (pt.toNat - 1) hring.vals (by omega)]
  have hrepAt : ∀ w : Nat, w = (s.header :: (ns1 ++ ns2)).getD pt.toNat 0 →
      RepC h { s with win := w, index := pt }
        ((vs1 ++ vs2).take pt.toNat) ((vs1 ++ vs2).drop pt.toNat) := by
    intro w hw
    refine ⟨(ns1 ++ ns2).take pt.toNat, (ns1 ++ ns2).drop pt.toNat, ?_, ?_, ?_, ?_, ?_⟩
    · rw [List.take_append_drop, List.take_append_drop]
      exact hring
    · rw [List.length_take, List.length_take]
      omega
    · show s.length = (((vs1 ++ vs2).take pt.toNat ++ (vs1 ++ vs2).drop pt.toNat).length : Int)
      rw [List.take_append_drop, hL]
    · show pt = (((vs1 ++ vs2).take pt.toNat).length : Int)
      rw [List.length_take]
      omega
    · show w = ((ns1 ++ ns2).take pt.toNat).getLastD s.header
      have h9 := getLastD_eq_getD s.header ((ns1 ++ ns2).take pt.toNat)
        ((ns1 ++ ns2).drop pt.toNat)
      rw [List.take_append_drop, List.length_take, Nat.min_eq_left (by omega)] at h9
      rw [hw, h9]
  rcases lt_trichotomy pt s.index with hlt | heq | hgt
  · have hred : ListSt.GetAt h s pt
        = (h.val ((fun x => h.prv x)^[(s.index - pt).toNat] s.win), h,
          { s with win := (fun x => h.prv x)^[(s.index - pt).toNat] s.win,
                   index := pt }) := by
      simp only [ListSt.GetAt, if_neg hguard, if_pos hlt]
    have hcast : (s.index - pt).toNat = ns1.length - pt.toNat := by
      rw [hI] at hlt ⊢
      omega
    have hlek : pt.toNat ≤ ns1.length := by
      rw [hI] at hlt
      omega
    have hiter : (fun x => h.prv x)^[(s.index - pt).toNat] s.win
        = (s.header :: (ns1 ++ ns2)).getD pt.toNat 0 := by
      rw [hwin, hcast]
      rw [chainR_iter_prv hring.chain (ns1.length - pt.toNat) ns1.length
        (by omega) hn1]
      congr 1
      omega
    rw [hred, hiter]
    exact ⟨hval_at _ rfl, hrepAt _ rfl⟩
  · have hred : ListSt.GetAt h s pt = (h.val s.win, h, s) := by
      simp only [ListSt.GetAt, if_neg hguard, if_neg (lt_irrefl pt).elim]
      rw [if_neg (by omega), if_neg (by omega)]
    have hik : ns1.length = pt.toNat := by
      rw [hI] at heq
      omega
    have hseq : { s with win := s.win, index := pt } = s := by
      rw [heq]
    constructor
    · rw [hred]
      exact hval_at s.win (by rw [hwin, hik])
    · rw [hred]
      show RepC h s ((vs1 ++ vs2).take pt.toNat) ((vs1 ++ vs2).drop pt.toNat)
      rw [← hseq]
      exact hrepAt s.win (by rw [hwin, hik])
  · have hred : ListSt.GetAt h s pt
        = (h.val ((fun x => h.nxt x)^[(pt - s.index).toNat] s.win), h,
          { s with win := (fun x => h.nxt x)^[(pt - s.index).toNat] s.win,
                   index := pt }) := by
      simp only [ListSt.GetAt, if_neg hguard, if_neg (by omega : ¬ pt < s.index),
        if_pos hgt]
    have hcast : (pt - s.index).toNat = pt.toNat - ns1.length := by
      rw [hI] at hgt ⊢
      omega
    have hgek : ns1.length ≤ pt.toNat := by
      rw [hI] at hgt
      omega
    have hiter : (fun x => h.nxt x)^[(pt - s.index).toNat] s.win
        = (s.header :: (ns1 ++ ns2)).getD pt.toNat 0 := by
      rw [hwin, hcast]
      rw [chainR_iter_nxt hring.chain (pt.toNat - ns1.length) ns1.length (by omega)]
      congr 1
      omega
    rw [hred, hiter]
    exact ⟨hval_at _ rfl, hrepAt _ rfl⟩

/-- appendList concatenates the other list's elements after self's and
leaves the other list valid but empty (window on its header, singleton
ring, index untouched). -/
theorem appendList_spec {α : Type} {h : Heap α} {sA sB : ListSt}
    {a b ws : List α} (hab : RepC₂ h sA a b sB ws) :
    RepC (ListSt.appendList h sA sB).1 (ListSt.appendList h sA sB).2.1 a (b ++ ws) ∧
    (ListSt.appendList h sA sB).2.2.length = 0 ∧
    (ListSt.appendList h sA sB).2.2.win = sB.header ∧
    (ListSt.appendList h sA sB).2.2.index = sB.index ∧
    (ListSt.appendList h sA sB).1.nxt sB.header = sB.header ∧
    (ListSt.appendList h sA sB).1.prv sB.header = sB.header ∧
    RepW (ListSt.appendList h sA sB).1 (ListSt.appendList h sA sB).2.2 [] ∧
    (ListSt.appendList h sA sB).2.2.header = sB.header := by
  obtain ⟨ns1, ns2, ms, hringA, hlen, hLA, hIA, hWA, hringB, hBwin, hLB, hdisj⟩ := hab
  have hmerge := ringOf_appendList hringA hringB hdisj
  have hself := nodeRemove_self (ListNode.splice h (h.prv sA.header) sB.header)
    sB.header
  have hvalB : (ListSt.appendList h sA sB).1.val sB.header = none := hringB.hval
  have hboundB : sB.header < h.alloc := hringB.bound sB.header (by simp)
  refine ⟨?_, rfl, rfl, rfl, hself.1, hself.2, ?_, rfl⟩
  · refine ⟨ns1, ns2 ++ ms, ?_, hlen, ?_, hIA, hWA⟩
    · show RingOf (ListSt.appendList h sA sB).1 sA.header (ns1 ++ (ns2 ++ ms))
        (a ++ (b ++ ws))
      rw [← List.append_assoc, ← List.append_assoc]
      exact hmerge
    · show sA.length + sB.length = ((a ++ (b ++ ws)).length : Int)
      rw [hLA, hLB]
      simp only [List.length_append]
      push_cast
      omega
  · refine ⟨[], ⟨⟨hself.1, hself.2⟩, by simp, ?_, hvalB, trivial⟩,
      List.mem_singleton.2 rfl, rfl⟩
    intro x hx
    simp only [List.mem_singleton] at hx
    subst hx
    exact hboundB

/-! Ring membership helpers and the two-sided inverse property. -/

theorem ring_mem_of_append {hd x : Nat} {ns : List Nat}
    (hx : x ∈ ns ++ [hd]) : x ∈ hd :: ns := by
  simp only [List.mem_append, List.mem_singleton] at hx
  simp only [List.mem_cons]
  tauto

theorem ring_mem_to_append {hd x : Nat} {ns : List Nat}
    (hx : x ∈ hd :: ns) : x ∈ ns ++ [hd] := by
  simp only [List.mem_cons] at hx
  simp only [List.mem_append, List.mem_singleton]
  tauto

theorem chainR_prv_nxt {α : Type} {h : Heap α} :
    ∀ {l : List Nat} {a c x : Nat}, chainR h a l c → x ∈ a :: l →
      h.prv (h.nxt x) = x
  | [], a, c, x, hc, hx => by
    simp only [List.not_mem_nil, List.mem_cons, or_false] at hx
    subst hx
    rw [hc.1, hc.2]
  | b :: l, a, c, x, hc, hx => by
    rcases List.mem_cons.1 hx with rfl | hx
    · rw [hc.1.1, hc.1.2]
    · exact chainR_prv_nxt hc.2 hx

theorem chainR_nxt_prv {α : Type} {h : Heap α} :
    ∀ {l : List Nat} {a c x : Nat}, chainR h a l c → x ∈ l ++ [c] →
      h.nxt (h.prv x) = x
  | [], a, c, x, hc, hx => by
    simp only [List.nil_append, List.mem_singleton] at hx
    subst hx
    rw [hc.2, hc.1]
  | b :: l, a, c, x, hc, hx => by
    simp only [List.cons_append, List.mem_cons] at hx
    rcases hx with rfl | hx
    · rw [hc.1.2, hc.1.1]
    · exact chainR_nxt_prv hc.2 (by simpa using hx)

theorem iter_nxt_mem {α : Type} {h : Heap α} {hd : Nat} {ns : List Nat}
    (hchain : chainR h hd ns hd) :
    ∀ (k : Nat) (x : Nat), x ∈ hd :: ns → (fun y => h.nxt y)^[k] x ∈ hd :: ns := by
  intro k
  induction k with
  | zero => intro x hx; simpa using hx
  | succ k ih =>
    intro x hx
    rw [Function.iterate_succ_apply]
    exact ih (h.nxt x) (ring_mem_of_append (chainR_nxt_mem hchain hx))

theorem iter_prv_mem {α : Type} {h : Heap α} {hd : Nat} {ns : List Nat}
    (hchain : chainR h hd ns hd) :
    ∀ (k : Nat) (x : Nat), x ∈ hd :: ns → (fun y => h.prv y)^[k] x ∈ hd :: ns := by
  intro k
  induction k with
  | zero => intro x hx; simpa using hx
  | succ k ih =>
    intro x hx
    rw [Function.iterate_succ_apply]
    exact ih (h.prv x) (chainR_prv_mem hchain (ring_mem_to_append hx))

/-- Every node of a well-formed ring has mutually inverse links. -/
theorem ringOf_inverse {α : Type} {h : Heap α} {hd : Nat} {ns : List Nat}
    {vs : List α} (hr : RingOf h hd ns vs) :
    ∀ x ∈ hd :: ns, h.prv (h.nxt x) = x ∧ h.nxt (h.prv x) = x := by
  intro x hx
  exact ⟨chainR_prv_nxt hr.chain hx, chainR_nxt_prv hr.chain (ring_mem_to_append hx)⟩

/-- Reachable nodes are exactly ring members. -/
theorem reachable_mem {α : Type} {h : Heap α} {hd : Nat} {ns : List Nat}
    {vs : List α} (hr : RingOf h hd ns vs) {n : Nat} (hn : reachable h hd n) :
    n ∈ hd :: ns := by
  obtain ⟨k, hk⟩ := hn
  rw [← hk]
  exact iter_nxt_mem hr.chain k hd (by simp)

/-- A weak representation can be split at the window. -/
theorem repW_split {α : Type} {h : Heap α} {s : ListSt} {vs : List α}
    (hw : RepW h s vs) :
    ∃ (ns1 ns2 : List Nat) (vs1 vs2 : List α), vs = vs1 ++ vs2 ∧
      RingOf h s.header (ns1 ++ ns2) (vs1 ++ vs2) ∧ ns1.length = vs1.length ∧
      s.length = (vs.length : Int) ∧ s.win = ns1.getLastD s.header := by
  obtain ⟨ns, hring, hmem, hL⟩ := hw
  rcases List.mem_cons.1 hmem with hEq | hEq
  · exact ⟨[], ns, [], vs, rfl, hring, rfl, hL, hEq⟩
  · obtain ⟨l1, l2, hsp⟩ := List.append_of_mem hEq
    subst hsp
    have hlenv := valsOk_length hring.vals
    have hl1 : l1.length + 1 ≤ vs.length := by
      simp only [List.length_append, List.length_cons] at hlenv
      omega
    refine ⟨l1 ++ [s.win], l2, vs.take (l1.length + 1), vs.drop (l1.length + 1),
      (List.take_append_drop _ vs).symm, ?_, ?_, hL, (getLastD_concat_nat _ _ _).symm⟩
    · rw [List.take_append_drop, List.append_assoc]
      simpa using hring
    · rw [List.length_append, List.length_take]
      simp
      omega

/-- Overwriting the value of the node at a ring position keeps the ring
well formed with the value list updated at that position. -/
theorem ringOf_setVal {α : Type} {h : Heap α} {hd : Nat} {ns1 ns2 : List Nat}
    {w : Nat} {vs1 vs2 : List α} {x : α}
    (hr : RingOf h hd (ns1 ++ w :: ns2) (vs1 ++ x :: vs2))
    (hlen : ns1.length = vs1.length) (v : α) :
    RingOf (setVal h w (some v)) hd (ns1 ++ w :: ns2) (vs1 ++ v :: vs2) := by
  obtain ⟨hchain, hnodup, hbound, hhval, hvals⟩ := hr
  have hwmem : w ∈ ns1 ++ w :: ns2 := List.mem_append_right _ (by simp)
  have hhd : hd ≠ w := by
    intro hEq
    exact (List.nodup_cons.1 hnodup).1 (hEq ▸ hwmem)
  have hnsdup : (ns1 ++ w :: ns2).Nodup := (List.nodup_cons.1 hnodup).2
  have hw_notin1 : w ∉ ns1 := by
    have hdisj := List.disjoint_of_nodup_append hnsdup
    exact fun hmem => hdisj hmem (by simp)
  have hw_notin2 : w ∉ ns2 := by
    have h10 : (w :: ns2).Nodup :=
      List.Nodup.sublist (List.sublist_append_right ns1 _) hnsdup
    exact (List.nodup_cons.1 h10).1
  have hnew : ∀ y, y ≠ w → (setVal h w (some v)).val y = h.val y := by
    intro y hy
    rw [setVal_val, if_neg hy]
  refine ⟨?_, hnodup, ?_, ?_, ?_⟩
  · exact chainR_frame hchain (fun y _ => rfl) (fun y _ => rfl)
  · intro y hy
    show y < h.alloc
    exact hbound y hy
  · rw [hnew hd hhd]
    exact hhval
  · have hsplit := (valsOk_append (w :: ns2) (x :: vs2) hlen).1 hvals
    rw [valsOk_append (w :: ns2) (v :: vs2) hlen]
    refine ⟨valsOk_frame hsplit.1 (fun y hy => hnew y
      (fun hEq => hw_notin1 (hEq ▸ hy))), ?_, ?_⟩
    · show (setVal h w (some v)).val w = some v
      rw [setVal_val, if_pos rfl]
    · exact valsOk_frame hsplit.2.2 (fun y hy => hnew y
        (fun hEq => hw_notin2 (hEq ▸ hy)))

theorem getLastD_mem_ring {hd : Nat} (ns1 rest : List Nat) :
    ns1.getLastD hd ∈ hd :: (ns1 ++ rest) := by
  rcases List.mem_cons.1 (List.getLastD_mem_cons ns1 hd) with hEq | hEq
  · rw [hEq]
    simp
  · exact List.mem_cons_of_mem _ (List.mem_append_left _ hEq)

/-- Every public single-list operation maps a state with a well-formed
ring and in-ring window to another such state: the ring structure can
never be corrupted, whatever the index field holds. -/
theorem repW_preserved {α : Type} [DecidableEq α] (op : Op α) {h : Heap α}
    {s : ListSt} {vs : List α} (hw : RepW h s vs) :
    ∃ vs' : List α, RepW (applyOp op (h, s)).1 (applyOp op (h, s)).2 vs' := by
  cases op with
  | insert v =>
    obtain ⟨ns1, ns2, vs1, vs2, hvs, hring, hlen, hL, hW⟩ := repW_split hw
    refine ⟨vs1 ++ v :: vs2, ns1 ++ h.alloc :: ns2, ?_, ?_, ?_⟩
    · show RingOf (ListNode.insert (allocNode h (some v)).1 s.win
        (allocNode h (some v)).2) s.header (ns1 ++ h.alloc :: ns2) (vs1 ++ v :: vs2)
      rw [hW]
      exact ringOf_insertAfter hring hlen v
    · show s.win ∈ s.header :: (ns1 ++ h.alloc :: ns2)
      rw [hW]
      exact getLastD_mem_ring ns1 _
    · show s.length + 1 = ((vs1 ++ v :: vs2).length : Int)
      rw [hL, hvs]
      simp only [List.length_append, List.length_cons]
      push_cast
      omega
  | prepend v =>
    obtain ⟨ns, hring, hmem, hL⟩ := hw
    have hring0 : RingOf h s.header ([] ++ ns) ([] ++ vs) := by simpa using hring
    refine ⟨v :: vs, h.alloc :: ns, ?_, ?_, ?_⟩
    · show RingOf (ListNode.insert (allocNode h (some v)).1 s.header
        (allocNode h (some v)).2) s.header (h.alloc :: ns) (v :: vs)
      have h9 := ringOf_insertAfter hring0 rfl v
      simpa using h9
    · show s.win ∈ s.header :: (h.alloc :: ns)
      rcases List.mem_cons.1 hmem with hEq | hEq
      · rw [hEq]
        simp
      · exact List.mem_cons_of_mem _ (List.mem_cons_of_mem _ hEq)
    · show s.length + 1 = ((v :: vs).length : Int)
      rw [hL]
      simp
  | append v =>
    obtain ⟨ns, hring, hmem, hL⟩ := hw
    have hring0 : RingOf h s.header ((ns ++ []) ++ []) ((vs ++ []) ++ []) := by
      simpa using hring
    have hlen0 : (ns ++ []).length = (vs ++ []).length := by
      simpa using valsOk_length hring.vals
    have hhd : s.header ≠ h.alloc :=
      fun hEq => lt_irrefl h.alloc (hEq ▸ hring.bound s.header (by simp))
    have hprv : (allocNode h (some v)).1.prv s.header = (ns ++ []).getLastD s.header := by
      rw [allocNode_prv, if_neg hhd]
      have h9 := chainR_prv_last hring.chain
      simpa using h9
    refine ⟨vs ++ [v], ns ++ [h.alloc], ?_, ?_, ?_⟩
    · show RingOf (ListNode.insert (allocNode h (some v)).1
        ((allocNode h (some v)).1.prv s.header)
        (allocNode h (some v)).2) s.header (ns ++ [h.alloc]) (vs ++ [v])
      rw [hprv]
      have h9 := ringOf_insertAfter hring0 hlen0 v
      simpa using h9
    · show s.win ∈ s.header :: (ns ++ [h.alloc])
      rcases List.mem_cons.1 hmem with hEq | hEq
      · rw [hEq]
        simp
      · exact List.mem_cons_of_mem _ (List.mem_append_left _ hEq)
    · show s.length + 1 = ((vs ++ [v]).length : Int)
      rw [hL]
      simp
  | remove =>
    by_cases hwh : s.win = s.header
    · have hred : ListSt.remove h s = (none, h, s) := by
        simp only [ListSt.remove, if_pos hwh]
      refine ⟨vs, ?_⟩
      show RepW (ListSt.remove h s).2.1 (ListSt.remove h s).2.2 vs
      rw [hred]
      exact hw
    · obtain ⟨ns, hring, hmem, hL⟩ := hw
      have hmem' : s.win ∈ ns := by
        rcases List.mem_cons.1 hmem with hEq | hEq
        · exact absurd hEq hwh
        · exact hEq
      obtain ⟨l1, l2, hsp⟩ := List.append_of_mem hmem'
      have hlenv := valsOk_length hring.vals
      have hl1 : l1.length < vs.length := by
        rw [hsp] at hlenv
        simp only [List.length_append, List.length_cons] at hlenv
        omega
      have hdropne : vs.drop l1.length ≠ [] := by
        intro hEq
        have := List.length_drop l1.length vs
        rw [hEq] at this
        simp at this
        omega
      obtain ⟨x, r, hxr⟩ := List.exists_cons_of_ne_nil hdropne
      have hvs : vs = vs.take l1.length ++ x :: r := by
        rw [← hxr, List.take_append_drop]
      have hringS : RingOf h s.header (l1 ++ s.win :: l2)
          (vs.take l1.length ++ x :: r) := by
        rw [← hsp, ← hvs]
        exact hring
      have hlen' : l1.length = (vs.take l1.length).length := by
        rw [List.length_take]
        omega
      have hsp2 := (chainR_append_cons l1 s.header s.win l2 s.header).1 hringS.chain
      have hprvw : h.prv s.win = l1.getLastD s.header := chainR_prv_last hsp2.1
      have htgt : h.nxt (h.prv s.win) = s.win := by
        rw [hprvw]
        exact chainR_nxt_last hsp2.1
      have hred : ListSt.remove h s = (h.val s.win,
          ListNode.remove h (h.nxt (h.prv s.win)),
          { s with win := h.prv s.win, index := s.index - 1,
                   length := s.length - 1 }) := by
        simp only [ListSt.remove, if_neg hwh]
      refine ⟨vs.take l1.length ++ r, ?_⟩
      show RepW (ListSt.remove h s).2.1 (ListSt.remove h s).2.2 _
      rw [hred]
      refine ⟨l1 ++ l2, ?_, ?_, ?_⟩
      · show RingOf (ListNode.remove h (h.nxt (h.prv s.win))) s.header
          (l1 ++ l2) (vs.take l1.length ++ r)
        rw [htgt]
        exact ringOf_removeMid hringS hlen'
      · show h.prv s.win ∈ s.header :: (l1 ++ l2)
        rw [hprvw]
        exact getLastD_mem_ring l1 l2
      · show s.length - 1 = ((vs.take l1.length ++ r).length : Int)
        rw [hL]
        have h9 : vs.length = (vs.take l1.length).length + 1 + r.length := by
          conv_lhs => rw [hvs]
          simp only [List.length_append, List.length_cons]
          omega
        rw [h9]
        simp only [List.length_append]
        push_cast
        omega
  | valPut v =>
    by_cases hwh : s.win = s.header
    · have hred : ListSt.valPut h s v = (none, h, s) := by
        simp only [ListSt.valPut, if_pos hwh]
      refine ⟨vs, ?_⟩
      show RepW (ListSt.valPut h s v).2.1 (ListSt.valPut h s v).2.2 vs
      rw [hred]
      exact hw
    · obtain ⟨ns, hring, hmem, hL⟩ := hw
      have hmem' : s.win ∈ ns := by
        rcases List.mem_cons.1 hmem with hEq | hEq
        · exact absurd hEq hwh
        · exact hEq
      obtain ⟨l1, l2, hsp⟩ := List.append_of_mem hmem'
      have hlenv := valsOk_length hring.vals
      have hl1 : l1.length < vs.length := by
        rw [hsp] at hlenv
        simp only [List.length_append, List.length_cons] at hlenv
        omega
      have hdropne : vs.drop l1.length ≠ [] := by
        intro hEq
        have := List.length_drop l1.length vs
        rw [hEq] at this
        simp at this
        omega
      obtain ⟨x, r, hxr⟩ := List.exists_cons_of_ne_nil hdropne
      have hvs : vs = vs.take l1.length ++ x :: r := by
        rw [← hxr, List.take_append_drop]
      have hringS : RingOf h s.header (l1 ++ s.win :: l2)
          (vs.take l1.length ++ x :: r) := by
        rw [← hsp, ← hvs]
        exact hring
      have hlen' : l1.length = (vs.take l1.length).length := by
        rw [List.length_take]
        omega
      have hred : ListSt.valPut h s v
          = (h.val s.win, setVal h s.win (some v), s) := by
        simp only [ListSt.valPut, if_neg hwh]
      refine ⟨vs.take l1.length ++ v :: r, ?_⟩
      show RepW (ListSt.valPut h s v).2.1 (ListSt.valPut h s v).2.2 _
      rw [hred]
      refine ⟨l1 ++ s.win :: l2, ringOf_setVal hringS hlen' v, ?_, ?_⟩
      · rw [← hsp]
        exact hmem
      · show s.length = ((vs.take l1.length ++ v :: r).length : Int)
        rw [hL]
        have h9 : vs.length = (vs.take l1.length ++ v :: r).length := by
          conv_lhs => rw [hvs]
          simp only [List.length_append, List.length_cons]
        rw [h9]
  | valGet => exact ⟨vs, hw⟩
  | getAt p =>
    by_cases hg : p < 1 ∨ s.length < p
    · have hred := getAt_oob h s p hg
      refine ⟨vs, ?_⟩
      show RepW (ListSt.GetAt h s p).2.1 (ListSt.GetAt h s p).2.2 vs
      rw [hred]
      exact hw
    · obtain ⟨ns, hring, hmem, hL⟩ := hw
      rcases lt_trichotomy p s.index with hlt | heq | hgt
      · have hred : ListSt.GetAt h s p
            = (h.val ((fun x => h.prv x)^[(s.index - p).toNat] s.win), h,
              { s with win := (fun x => h.prv x)^[(s.index - p).toNat] s.win,
                       index := p }) := by
          simp only [ListSt.GetAt, if_neg hg, if_pos hlt]
        refine ⟨vs, ?_⟩
        show RepW (ListSt.GetAt h s p).2.1 (ListSt.GetAt h s p).2.2 vs
        rw [hred]
        exact ⟨ns, hring, iter_prv_mem hring.chain _ s.win hmem, hL⟩
      · have hred : ListSt.GetAt h s p = (h.val s.win, h, s) := by
          simp only [ListSt.GetAt, if_neg hg]
          rw [if_neg (by omega), if_neg (by omega)]
        refine ⟨vs, ?_⟩
        show RepW (ListSt.GetAt h s p).2.1 (ListSt.GetAt h s p).2.2 vs
        rw [hred]
        exact ⟨ns, hring, hmem, hL⟩
      · have hred : ListSt.GetAt h s p
            = (h.val ((fun x => h.nxt x)^[(p - s.index).toNat] s.win), h,
              { s with win := (fun x => h.nxt x)^[(p - s.index).toNat] s.win,
                       index := p }) := by
          simp only [ListSt.GetAt, if_neg hg, if_neg (by omega : ¬ p < s.index),
            if_pos hgt]
        refine ⟨vs, ?_⟩
        show RepW (ListSt.GetAt h s p).2.1 (ListSt.GetAt h s p).2.2 vs
        rw [hred]
        exact ⟨ns, hring, iter_nxt_mem hring.chain _ s.win hmem, hL⟩
  | next =>
    obtain ⟨ns, hring, hmem, hL⟩ := hw
    refine ⟨vs, ns, hring, ?_, hL⟩
    show h.nxt s.win ∈ s.header :: ns
    exact ring_mem_of_append (chainR_nxt_mem hring.chain hmem)
  | prev =>
    obtain ⟨ns, hring, hmem, hL⟩ := hw
    refine ⟨vs, ns, hring, ?_, hL⟩
    show h.prv s.win ∈ s.header :: ns
    exact chainR_prv_mem hring.chain (ring_mem_to_append hmem)
  | first =>
    obtain ⟨ns, hring, hmem, hL⟩ := hw
    refine ⟨vs, ns, hring, ?_, hL⟩
    show h.nxt s.header ∈ s.header :: ns
    exact ring_mem_of_append (chainR_nxt_mem hring.chain (by simp))
  | last =>
    obtain ⟨ns, hring, hmem, hL⟩ := hw
    refine ⟨vs, ns, hring, ?_, hL⟩
    show h.prv s.header ∈ s.header :: ns
    exact chainR_prv_mem hring.chain (ring_mem_to_append (by simp))

/-- appendList preserves ring well-formedness for both lists, from any
pair of disjoint well-formed rings, regardless of either index field. -/
theorem appendList_repW {α : Type} {h : Heap α} {sA sB : ListSt}
    {vsA vsB : List α} (hw : RepW₂ h sA vsA sB vsB) :
    RepW (ListSt.appendList h sA sB).1 (ListSt.appendList h sA sB).2.1
      (vsA ++ vsB) ∧
    RepW (ListSt.appendList h sA sB).1 (ListSt.appendList h sA sB).2.2 [] := by
  obtain ⟨nsA, nsB, hringA, hmemA, hLA, hringB, hmemB, hLB, hdisj⟩ := hw
  have hmerge := ringOf_appendList hringA hringB hdisj
  have hself := nodeRemove_self (ListNode.splice h (h.prv sA.header) sB.header)
    sB.header
  constructor
  · refine ⟨nsA ++ nsB, hmerge, ?_, ?_⟩
    · show sA.win ∈ sA.header :: (nsA ++ nsB)
      rcases List.mem_cons.1 hmemA with hEq | hEq
      · rw [hEq]
        simp
      · exact List.mem_cons_of_mem _ (List.mem_append_left _ hEq)
    · show sA.length + sB.length = ((vsA ++ vsB).length : Int)
      rw [hLA, hLB]
      simp only [List.length_append]
      push_cast
      omega
  · refine ⟨[], ⟨⟨hself.1, hself.2⟩, by simp, ?_, hringB.hval, trivial⟩,
      List.mem_singleton.2 rfl, rfl⟩
    intro x hx
    simp only [List.mem_singleton] at hx
    subst hx
    exact hringB.bound sB.header (by simp)

/-- Inserting a value into an emptied list (window on the header, empty
ring) produces a one-element list, exactly as on a fresh list; this holds
for insert, prepend and append alike. -/
theorem emptyState_insert_fresh {α : Type} {h : Heap α} {s : ListSt}
    (hw : RepW h s []) (hwin : s.win = s.header) (v : α) :
    RepW (ListSt.insert h s v).1 (ListSt.insert h s v).2 [v] ∧
    RepW (ListSt.prepend h s v).1 (ListSt.prepend h s v).2 [v] ∧
    RepW (ListSt.append h s v).1 (ListSt.append h s v).2 [v] := by
  obtain ⟨ns, hring, hmem, hL⟩ := hw
  have hns : ns = [] := List.length_eq_zero.1 (valsOk_length hring.vals)
  subst hns
  have hL0 : s.length = 0 := by simpa using hL
  have hring0 : RingOf h s.header ([] ++ []) (([] : List α) ++ []) := hring
  have hins := ringOf_insertAfter hring0 rfl v
  have hhd : s.header ≠ h.alloc :=
    fun hEq => lt_irrefl h.alloc (hEq ▸ hring.bound s.header (by simp))
  have hprvhd : h.prv s.header = s.header := hring.chain.2
  constructor
  · refine ⟨[h.alloc], ?_, ?_, ?_⟩
    · show RingOf (ListNode.insert (allocNode h (some v)).1 s.win
        (allocNode h (some v)).2) s.header [h.alloc] [v]
      rw [hwin]
      exact hins
    · show s.win ∈ s.header :: [h.alloc]
      rw [hwin]
      simp
    · show s.length + 1 = ((1 : Nat) : Int)
      rw [hL0]
      rfl
  constructor
  · refine ⟨[h.alloc], ?_, ?_, ?_⟩
    · show RingOf (ListNode.insert (allocNode h (some v)).1 s.header
        (allocNode h (some v)).2) s.header [h.alloc] [v]
      exact hins
    · show s.win ∈ s.header :: [h.alloc]
      rw [hwin]
      simp
    · show s.length + 1 = ((1 : Nat) : Int)
      rw [hL0]
      rfl
  · refine ⟨[h.alloc], ?_, ?_, ?_⟩
    · show RingOf (ListNode.insert (allocNode h (some v)).1
        ((allocNode h (some v)).1.prv s.header)
        (allocNode h (some v)).2) s.header [h.alloc] [v]
      have h9 : (allocNode h (some v)).1.prv s.header = s.header := by
        rw [allocNode_prv, if_neg hhd, hprvhd]
      rw [h9]
      exact hins
    · show s.win ∈ s.header :: [h.alloc]
      rw [hwin]
      simp
    · show s.length + 1 = ((1 : Nat) : Int)
      rw [hL0]
      rfl

/-- Each public operation transforms the represented zipper exactly as
stepA describes, provided the operation's side condition holds. -/
theorem repC_step {α : Type} [DecidableEq α] (op : Op α) {h : Heap α} {s : ListSt}
    {a b : List α} (hr : RepC h s a b) (hok : okOp op (a, b)) :
    RepC (applyOp op (h, s)).1 (applyOp op (h, s)).2
      (stepA op (a, b)).1 (stepA op (a, b)).2 := by
  cases op with
  | insert v => exact insert_spec hr v
  | prepend v =>
    by_cases ha : a = []
    · subst ha
      simpa [stepA] using prepend_spec_hd hr v
    · obtain ⟨x, a', hEq⟩ := List.exists_cons_of_ne_nil ha
      subst hEq
      simpa [stepA] using prepend_spec_mid hr v
  | append v => exact append_spec hr v
  | remove =>
    rcases List.eq_nil_or_concat a with ha | ⟨l, x, ha⟩
    · subst ha
      have hred := remove_spec_hd hr
      show RepC (ListSt.remove h s).2.1 (ListSt.remove h s).2.2 _ _
      rw [hred]
      simpa [stepA] using hr
    · rw [List.concat_eq_append] at ha
      subst ha
      have h9 := (remove_spec hr).2
      simpa [stepA, List.dropLast_concat] using h9
  | valPut v =>
    by_cases ha : a = []
    · subst ha
      have hred := valPut_spec_hd hr v
      show RepC (ListSt.valPut h s v).2.1 (ListSt.valPut h s v).2.2 _ _
      rw [hred]
      simpa [stepA] using hr
    · rcases List.eq_nil_or_concat a with ha2 | ⟨l, x, ha2⟩
      · exact absurd ha2 ha
      · rw [List.concat_eq_append] at ha2
        subst ha2
        have h9 := (valPut_spec hr v).2
        simpa [stepA, ha, List.dropLast_concat] using h9
  | valGet => exact hr
  | getAt p =>
    by_cases hg : p < 1 ∨ ((a ++ b).length : Int) < p
    · have hg2 : p < 1 ∨ s.length < p := by
        rw [repC_length_eq hr]
        exact hg
      have hred := getAt_oob h s p hg2
      have hstep : stepA (Op.getAt p) (a, b) = (a, b) := by
        simp only [stepA]
        rw [if_pos hg]
      rw [hstep]
      show RepC (ListSt.GetAt h s p).2.1 (ListSt.GetAt h s p).2.2 a b
      rw [hred]
      exact hr
    · have hg1 : 1 ≤ p := by omega
      have hg2 : p ≤ ((a ++ b).length : Int) := by omega
      have h9 := (getAt_spec hr p hg1 hg2).2
      have hstep : stepA (Op.getAt p) (a, b)
          = ((a ++ b).take p.toNat, (a ++ b).drop p.toNat) := by
        simp only [stepA]
        rw [if_neg hg]
      rw [hstep]
      exact h9
  | next =>
    cases b with
    | nil => simpa [stepA] using (next_spec_end hr).2
    | cons d r => simpa [stepA] using (next_spec_mid hr).2
  | prev =>
    rcases List.eq_nil_or_concat a with ha | ⟨l, x, ha⟩
    · subst ha
      simpa [stepA] using prev_spec_hd hr
    · rw [List.concat_eq_append] at ha
      subst ha
      have h9 := prev_spec_mid hr
      simpa [stepA, List.getLast?_concat, List.dropLast_concat] using h9
  | first =>
    have hne : a ++ b ≠ [] := hok
    obtain ⟨d, r, hab⟩ := List.exists_cons_of_ne_nil hne
    have h9 := (first_spec hr hab).2
    simpa [stepA, hab] using h9
  | last => exact (last_spec hr).2

/-- A whole sequence of public operations transforms the representation
along the abstract zipper steps, provided every step's side condition
holds. -/
theorem repC_trace {α : Type} [DecidableEq α] :
    ∀ (ops : List (Op α)) {h : Heap α} {s : ListSt} {a b : List α},
      RepC h s a b → okTrace ops (a, b) →
      RepC (applyOps ops (h, s)).1 (applyOps ops (h, s)).2
        (stepsA ops (a, b)).1 (stepsA ops (a, b)).2
  | [], _, _, _, _, hr, _ => hr
  | op :: rest, h, s, a, b, hr, hok => by
    have h1 := repC_step op hr hok.1
    exact repC_trace rest h1 hok.2

/-! Loop lemmas for list2vector, repeated next, and the Stack. -/

theorem l2vLoop_spec : ∀ (vs2 vs1 : List Int) (x : Int) {h : Heap Int} {s : ListSt},
    RepC h s (vs1 ++ [x]) vs2 →
    (l2vLoop (1 + vs2.length) h s).1 = x :: vs2 ∧
    (l2vLoop (1 + vs2.length) h s).2.1 = h ∧
    RepC h (l2vLoop (1 + vs2.length) h s).2.2 [] ((vs1 ++ [x]) ++ vs2)
  | [], vs1, x, h, s, hr => by
    have hv := repC_val_at hr
    have hnx := next_spec_end hr
    have hred : l2vLoop (1 + ([] : List Int).length) h s
        = ((ListSt.val h s).getD 0 :: [],
           (ListSt.next h s).2.1, (ListSt.next h s).2.2) := rfl
    rw [hred]
    refine ⟨?_, rfl, ?_⟩
    · rw [hv]
      rfl
    · simpa using hnx.2
  | d :: r, vs1, x, h, s, hr => by
    have hv := repC_val_at hr
    have hnx := next_spec_mid hr
    have hk : 1 + (d :: r).length = Nat.succ (1 + r.length) := by
      simp only [List.length_cons]
      omega
    rw [hk]
    have hih := l2vLoop_spec r (vs1 ++ [x]) d hnx.2
    have hred : l2vLoop (Nat.succ (1 + r.length)) h s
        = ((ListSt.val h s).getD 0
            :: (l2vLoop (1 + r.length) (ListSt.next h s).2.1 (ListSt.next h s).2.2).1,
           (l2vLoop (1 + r.length) (ListSt.next h s).2.1 (ListSt.next h s).2.2).2.1,
           (l2vLoop (1 + r.length) (ListSt.next h s).2.1 (ListSt.next h s).2.2).2.2)
        := rfl
    rw [hred]
    refine ⟨?_, ?_, ?_⟩
    · rw [hv, hih.1]
      rfl
    · exact hih.2.1
    · have h9 := hih.2.2
      have hassoc : ((vs1 ++ [x]) ++ [d]) ++ r = (vs1 ++ [x]) ++ d :: r := by
        rw [List.append_assoc]
        rfl
      rw [hassoc] at h9
      exact h9

theorem nextN_partial {α : Type} :
    ∀ (k : Nat) {vs1 vs2 : List α} {h : Heap α} {s : ListSt}, k ≤ vs2.length →
      RepC h s vs1 vs2 →
      (nextN k (h, s)).1 = h ∧
      RepC h (nextN k (h, s)).2 (vs1 ++ vs2.take k) (vs2.drop k)
  | 0, vs1, vs2, h, s, _, hr => ⟨rfl, by simpa using hr⟩
  | Nat.succ k, vs1, vs2, h, s, hk, hr => by
    obtain ⟨d, r, rfl⟩ : ∃ d r, vs2 = d :: r := by
      cases vs2 with
      | nil => simp at hk
      | cons d r => exact ⟨d, r, rfl⟩
    have hnx := next_spec_mid hr
    have hih := nextN_partial k (by simpa using hk) hnx.2
    refine ⟨hih.1, ?_⟩
    have h9 := hih.2
    have hassoc : (vs1 ++ [d]) ++ r.take k = vs1 ++ (d :: r).take (Nat.succ k) := by
      rw [List.take_succ_cons, List.append_assoc]
      rfl
    rw [hassoc] at h9
    exact h9

theorem pushAll_spec {α : Type} :
    ∀ (l : List α) {h : Heap α} {s : ListSt} {acc : List α}, RepC h s [] acc →
      RepC (pushAll l (h, s)).1 (pushAll l (h, s)).2 [] (l.reverse ++ acc)
  | [], h, s, acc, hr => by simpa using hr
  | v :: r, h, s, acc, hr => by
    have hp := prepend_spec_hd hr v
    have hih := pushAll_spec r hp
    show RepC (pushAll r (ListSt.prepend h s v)).1
      (pushAll r (ListSt.prepend h s v)).2 [] ((v :: r).reverse ++ acc)
    have hsame : (ListSt.prepend h s v)
        = ((ListSt.prepend h s v).1, (ListSt.prepend h s v).2) := rfl
    rw [hsame]
    have hrev : (v :: r).reverse ++ acc = r.reverse ++ (v :: acc) := by
      rw [List.reverse_cons, List.append_assoc]
      rfl
    rw [hrev]
    exact hih

theorem popN_spec {α : Type} :
    ∀ (vs : List α) {h : Heap α} {s : ListSt}, RepC h s [] vs →
      (popN vs.length (h, s)).1 = vs.map some ∧
      RepC (popN vs.length (h, s)).2.1 (popN vs.length (h, s)).2.2 [] []
  | [], h, s, hr => ⟨rfl, hr⟩
  | d :: r, h, s, hr => by
    have hab : ([] : List α) ++ (d :: r) = d :: r := by simp
    have hf := first_spec hr hab
    have hfrep : RepC h (ListSt.first h s).2.2 [d] r := hf.2
    have hfrep2 : RepC h (ListSt.first h s).2.2 ([] ++ [d]) r := by
      simpa using hfrep
    have hrm := remove_spec hfrep2
    have hih := popN_spec r hrm.2
    have hred : popN (d :: r).length (h, s)
        = ((Stack.pop h s).1 :: (popN r.length ((Stack.pop h s).2.1,
            (Stack.pop h s).2.2)).1,
           (popN r.length ((Stack.pop h s).2.1, (Stack.pop h s).2.2)).2.1,
           (popN r.length ((Stack.pop h s).2.1, (Stack.pop h s).2.2)).2.2) := rfl
    rw [hred]
    have hpop1 : (Stack.pop h s).1 = some d := hrm.1
    constructor
    · show (Stack.pop h s).1 :: (popN r.length ((Stack.pop h s).2.1,
        (Stack.pop h s).2.2)).1 = some d :: List.map some r
      rw [hpop1]
      exact congrArg (List.cons (some d)) hih.1
    · exact hih.2
  
theorem pop_empty {α : Type} {h : Heap α} {s : ListSt}
    (hr : RepC h s ([] : List α) []) :
    (Stack.pop h s).1 = none := by
  have hf := first_spec_empty hr
  have hpopred : Stack.pop h s
      = ListSt.remove (ListSt.first h s).2.1 (ListSt.first h s).2.2 := rfl
  rw [hpopred, hf]
  simp [ListSt.remove]

/-! Concrete example states are well formed. -/

theorem exEmpty_repC : RepC exEmpty.1 exEmpty.2 ([] : List Int) [] :=
  mkList_repC (emptyHeap Int)

theorem exOne_repC : RepC exOne.1 exOne.2 ([] : List Int) [7] :=
  insert_spec exEmpty_repC 7

theorem exOneAt1_repC : RepC exOneAt1.1 exOneAt1.2 [(7 : Int)] [] :=
  (first_spec exOne_repC (by simp)).2

theorem exA0_repC : RepC exA0.1 exA0.2 ([] : List Int) [] :=
  mkList_repC (emptyHeap Int)

theorem exPair_repC₂ : RepC₂ exB1.1 exA1.2 [] [(1 : Int)] exB1.2 [(2 : Int)] := by
  refine ⟨[], [2], [3], ?_, rfl, by decide, by decide, rfl, ?_, by decide, by decide,
    ?_⟩
  · refine ⟨?_, by decide, by decide, by decide, ?_⟩
    · simp only [chainR]
      decide
    · simp only [valsOk]
      decide
  · refine ⟨?_, by decide, by decide, by decide, ?_⟩
    · simp only [chainR]
      decide
    · simp only [valsOk]
      decide
  · intro x hx1 hx2
    have h1 : x = exA1.2.header ∨ x = 2 := by simpa using hx1
    have h2 : x = exB1.2.header ∨ x = 3 := by simpa using hx2
    have e1 : exA1.2.header = 0 := rfl
    have e2 : exB1.2.header = 1 := rfl
    rw [e1] at h1
    rw [e2] at h2
    omega

/-- A full two-list representation weakens to the index-free one. -/
theorem repC₂_repW₂ {α : Type} {h : Heap α} {sA sB : ListSt} {a b ws : List α}
    (hab : RepC₂ h sA a b sB ws) : RepW₂ h sA (a ++ b) sB ws := by
  obtain ⟨ns1, ns2, ms, hringA, hlen, hLA, hIA, hWA, hringB, hBwin, hLB, hdisj⟩ := hab
  refine ⟨ns1 ++ ns2, ms, hringA, ?_, hLA, hringB, hBwin, hLB, hdisj⟩
  rw [hWA]
  exact getLastD_mem_ring ns1 ns2

/-! Composition lemmas for iterated operations. -/

theorem nextN_add {α : Type} :
    ∀ (j k : Nat) (hs : Heap α × ListSt), nextN (j + k) hs = nextN k (nextN j hs)
  | 0, k, hs => by simp [nextN]
  | Nat.succ j, k, hs => by
    have h9 : Nat.succ j + k = Nat.succ (j + k) := by omega
    rw [h9]
    show nextN (j + k) (ListSt.next hs.1 hs.2).2 = _
    rw [nextN_add j k (ListSt.next hs.1 hs.2).2]
    rfl

theorem popN_snoc {α : Type} :
    ∀ (k : Nat) (hs : Heap α × ListSt),
      (popN (k + 1) hs).1
        = (popN k hs).1 ++ [(Stack.pop (popN k hs).2.1 (popN k hs).2.2).1]
  | 0, hs => rfl
  | Nat.succ k, hs => by
    show (Stack.pop hs.1 hs.2).1 :: (popN (k + 1) ((Stack.pop hs.1 hs.2).2.1,
      (Stack.pop hs.1 hs.2).2.2)).1 = _
    rw [popN_snoc k ((Stack.pop hs.1 hs.2).2.1, (Stack.pop hs.1 hs.2).2.2)]
    rfl

/-- Claim C9: for every List and every out-of-range position (position < 1
or position > length), GetAt returns the absent value and leaves the
window, index, length and ring contents exactly unchanged: the guard
rejects before any cursor movement. -/
theorem claim9_getAt_out_of_range {α : Type} (h : Heap α) (s : ListSt) (p : Int)
    (hp : p < 1 ∨ s.length < p) :
    ListSt.GetAt h s p = (none, h, s) :=
  getAt_oob h s p hp

/-- Witness for claim C9 at position 0 on the one-element list. -/
theorem claim9_witness :
    ((0 : Int) < 1 ∨ exOne.2.length < 0) ∧
    ListSt.GetAt exOne.1 exOne.2 0 = (none, exOne.1, exOne.2) :=
  ⟨Or.inl (by decide),
   claim9_getAt_out_of_range exOne.1 exOne.2 0 (Or.inl (by decide))⟩

/-- Claim C4: remove() returns the absent value and changes nothing when
the window is on the header (in particular, on an empty list length and
index stay 0); with the window on the element at position p it returns
that element's value, deletes exactly it, decrements length and index,
and leaves the cursor at position p - 1. -/
theorem claim4_remove {α : Type} :
    (∀ (h : Heap α) (s : ListSt) (b : List α),
      RepC h s [] b → ListSt.remove h s = (none, h, s)) ∧
    (∀ (h : Heap α) (s : ListSt) (a b : List α) (x : α),
      RepC h s (a ++ [x]) b →
      (ListSt.remove h s).1 = some x ∧
      RepC (ListSt.remove h s).2.1 (ListSt.remove h s).2.2 a b ∧
      (ListSt.remove h s).2.2.index = s.index - 1 ∧
      (ListSt.remove h s).2.2.length = s.length - 1) := by
  constructor
  · intro h s b hr
    exact remove_spec_hd hr
  · intro h s a b x hr
    have h9 := remove_spec hr
    refine ⟨h9.1, h9.2, ?_, ?_⟩
    · rw [repC_index_eq h9.2, repC_index_eq hr]
      simp only [List.length_append, List.length_cons, List.length_nil]
      push_cast
      omega
    · rw [repC_length_eq h9.2, repC_length_eq hr]
      simp only [List.length_append, List.length_cons, List.length_nil]
      push_cast
      omega

/-- Witness for claim C4: remove on the empty list and on [7] at
position 1. -/
theorem claim4_witness :
    ListSt.remove exEmpty.1 exEmpty.2 = (none, exEmpty.1, exEmpty.2) ∧
    (ListSt.remove exOneAt1.1 exOneAt1.2).1 = some 7 :=
  ⟨claim4_remove.1 exEmpty.1 exEmpty.2 [] exEmpty_repC,
   (claim4_remove.2 exOneAt1.1 exOneAt1.2 [] [] 7 (by simpa using exOneAt1_repC)).1⟩

/-- Claim C10: on an empty Stack, top() and bottom() return the absent
value (the sentinel's value, the window landing on the header), leaving
the stack empty with size() == 0. -/
theorem claim10_stack_empty {α : Type} (h : Heap α) (s : ListSt)
    (hr : RepC h s ([] : List α) []) :
    (Stack.top h s).1 = none ∧
    (Stack.top h s).2.2.win = s.header ∧
    Stack.size (Stack.top h s).2.2 = 0 ∧
    (Stack.bottom h s).1 = none ∧
    (Stack.bottom h s).2.2.win = s.header ∧
    Stack.size (Stack.bottom h s).2.2 = 0 := by
  have hf := first_spec_empty hr
  have hlen0 : s.length = 0 := by
    rw [repC_length_eq hr]
    rfl
  obtain ⟨ns1, ns2, hring, hlen, hL, hI, hW⟩ := hr
  have hns1 : ns1 = [] := List.length_eq_zero.1 (by simpa using hlen)
  have hns2 : ns2 = [] := by
    have hlenv := valsOk_length hring.vals
    subst hns1
    simpa using List.length_eq_zero.1 (by simpa using hlenv)
  subst hns1
  subst hns2
  have hprvhd : h.prv s.header = s.header := hring.chain.2
  have htop : Stack.top h s = ListSt.first h s := rfl
  have hbot : Stack.bottom h s = ListSt.last h s := rfl
  have hlast_red : ListSt.last h s = (h.val (h.prv s.header), h,
      { s with win := h.prv s.header, index := s.length }) := rfl
  refine ⟨?_, ?_, ?_, ?_, ?_, ?_⟩
  · rw [htop, hf]
  · rw [htop, hf]
  · show (Stack.top h s).2.2.length = 0
    rw [htop, hf]
    exact hlen0
  · rw [hbot, hlast_red, hprvhd]
    exact hring.hval
  · rw [hbot, hlast_red, hprvhd]
  · show (Stack.bottom h s).2.2.length = 0
    rw [hbot, hlast_red]
    exact hlen0

/-- Witness for claim C10 on a freshly constructed stack. -/
theorem claim10_witness :
    (Stack.top exEmpty.1 exEmpty.2).1 = none ∧
    (Stack.bottom exEmpty.1 exEmpty.2).1 = none ∧
    Stack.size (Stack.top exEmpty.1 exEmpty.2).2.2 = 0 := by
  have h9 := claim10_stack_empty exEmpty.1 exEmpty.2 exEmpty_repC
  exact ⟨h9.1, h9.2.2.2.1, h9.2.2.1⟩

/-- Claim C8: pushing n values onto an empty Stack and popping n + 1 times
returns exactly the pushed values in reverse order of the pushes, followed
by the absent value for the extra pop on the emptied stack. -/
theorem claim8_stack_roundtrip {α : Type} (l : List α) (h : Heap α) (s : ListSt)
    (hr : RepC h s ([] : List α) []) :
    (popN (l.length + 1) (pushAll l (h, s))).1 = l.reverse.map some ++ [none] := by
  have hpush := pushAll_spec l hr
  have hpush2 : RepC (pushAll l (h, s)).1 (pushAll l (h, s)).2 [] l.reverse := by
    simpa using hpush
  have hpop := popN_spec l.reverse hpush2
  have hpairs : ((pushAll l (h, s)).1, (pushAll l (h, s)).2) = pushAll l (h, s) := rfl
  rw [hpairs] at hpop
  have hlen : l.reverse.length = l.length := List.length_reverse l
  rw [hlen] at hpop
  rw [popN_snoc l.length (pushAll l (h, s)), hpop.1, pop_empty hpop.2]

/-- Witness for claim C8 with the pushes 4 then 5. -/
theorem claim8_witness :
    (popN 3 (pushAll [4, 5] (exEmpty.1, exEmpty.2))).1
      = [some 5, some 4, none] := by
  have h9 := claim8_stack_roundtrip [(4 : Int), 5] exEmpty.1 exEmpty.2 exEmpty_repC
  simpa using h9

/-- Claim C1 (amended): starting from any well-formed list, every sequence
of public operations whose first() calls all happen on a nonempty list
preserves the cursor invariant 0 <= index <= length and
index == 0 <-> window == header; append(List) preserves it for the target
list, and for the emptied source list the window lands on its header and
the index is left untouched, so the source satisfies the invariant exactly
when its index was 0; first() on an empty list breaks the invariant,
leaving index == 1 with the window on the header. -/
theorem claim1_cursor_invariant {α : Type} [DecidableEq α] :
    (∀ (ops : List (Op α)) (h : Heap α) (s : ListSt) (a b : List α),
      RepC h s a b → okTrace ops (a, b) → CursorInv (applyOps ops (h, s)).2) ∧
    (∀ (h : Heap α) (sA sB : ListSt) (a b ws : List α), RepC₂ h sA a b sB ws →
      CursorInv (ListSt.appendList h sA sB).2.1 ∧
      (ListSt.appendList h sA sB).2.2.win = sB.header ∧
      (ListSt.appendList h sA sB).2.2.index = sB.index ∧
      (sB.index = 0 → CursorInv (ListSt.appendList h sA sB).2.2)) ∧
    (∀ (h : Heap α) (s : ListSt), RepC h s ([] : List α) [] →
      (ListSt.first h s).2.2.index = 1 ∧ (ListSt.first h s).2.2.win = s.header) := by
  refine ⟨?_, ?_, ?_⟩
  · intro ops h s a b hr hok
    exact repC_cursorInv (repC_trace ops hr hok)
  · intro h sA sB a b ws hab
    have h9 := appendList_spec hab
    refine ⟨repC_cursorInv h9.1, h9.2.2.1, h9.2.2.2.1, ?_⟩
    intro hidx
    have hidx2 : (ListSt.appendList h sA sB).2.2.index = 0 := by
      rw [h9.2.2.2.1, hidx]
    have hwin2 : (ListSt.appendList h sA sB).2.2.win
        = (ListSt.appendList h sA sB).2.2.header := by
      rw [h9.2.2.1, h9.2.2.2.2.2.2.2]
    refine ⟨by simp [hidx2], by simp [hidx2, h9.2.1], ?_⟩
    exact ⟨fun _ => hwin2, fun _ => hidx2⟩
  · intro h s hr
    have h9 := first_spec_empty hr
    rw [h9]
    exact ⟨rfl, rfl⟩

/-- Counterexample for claim C1 as stated: first() on a freshly
constructed empty list violates the invariant (index becomes 1 while the
window rests on the header and length is 0). -/
theorem claim1_counterexample :
    ¬ CursorInv (ListSt.first exEmpty.1 exEmpty.2).2.2 := by
  intro hinv
  have h1 : (ListSt.first exEmpty.1 exEmpty.2).2.2.index = 1 := rfl
  have h2 : (ListSt.first exEmpty.1 exEmpty.2).2.2.length = 0 := rfl
  have h3 := hinv.2.1
  rw [h1, h2] at h3
  exact absurd h3 (by decide)

/-- Witness for claim C1 on a concrete trace and a concrete list pair. -/
theorem claim1_witness :
    CursorInv (applyOps [Op.insert (5 : Int), Op.first, Op.next]
      (exEmpty.1, exEmpty.2)).2 ∧
    CursorInv (ListSt.appendList exB1.1 exA1.2 exB1.2).2.1 ∧
    (ListSt.first exEmpty.1 exEmpty.2).2.2.index = 1 := by
  refine ⟨?_, ?_, ?_⟩
  · exact claim1_cursor_invariant.1 [Op.insert 5, Op.first, Op.next]
      exEmpty.1 exEmpty.2 [] [] exEmpty_repC
      (by simp [okTrace, okOp, stepA])
  · exact (claim1_cursor_invariant.2.1 exB1.1 exA1.2 exB1.2 [] [1] [2]
      exPair_repC₂).1
  · exact (claim1_cursor_invariant.2.2 exEmpty.1 exEmpty.2 exEmpty_repC).1

/-- Claim C7: every public operation maps a well-formed ring to a
well-formed ring (including append(List) for both lists involved); in a
well-formed ring every reachable node n satisfies
next(prev(n)) == n and prev(next(n)) == n; and a freshly created node and
a removed node are singleton rings with next == prev == self. -/
theorem claim7_ring_integrity {α : Type} [DecidableEq α] :
    (∀ (op : Op α) (h : Heap α) (s : ListSt) (vs : List α), RepW h s vs →
      ∃ vs' : List α, RepW (applyOp op (h, s)).1 (applyOp op (h, s)).2 vs') ∧
    (∀ (h : Heap α) (sA sB : ListSt) (vsA vsB : List α), RepW₂ h sA vsA sB vsB →
      RepW (ListSt.appendList h sA sB).1 (ListSt.appendList h sA sB).2.1
        (vsA ++ vsB) ∧
      RepW (ListSt.appendList h sA sB).1 (ListSt.appendList h sA sB).2.2 []) ∧
    (∀ (h : Heap α) (s : ListSt) (vs : List α), RepW h s vs →
      ∀ n : Nat, reachable h s.header n →
        h.nxt (h.prv n) = n ∧ h.prv (h.nxt n) = n) ∧
    (∀ (h : Heap α) (v : Option α),
      (allocNode h v).1.nxt (allocNode h v).2 = (allocNode h v).2 ∧
      (allocNode h v).1.prv (allocNode h v).2 = (allocNode h v).2) ∧
    (∀ (h : Heap α) (n : Nat),
      (ListNode.remove h n).nxt n = n ∧ (ListNode.remove h n).prv n = n) := by
  refine ⟨fun op h s vs hw => repW_preserved op hw,
    fun h sA sB vsA vsB hw => appendList_repW hw, ?_, ?_, fun h n => nodeRemove_self h n⟩
  · intro h s vs hw n hn
    obtain ⟨ns, hring, hmem, hL⟩ := hw
    have hmemn := reachable_mem hring hn
    have h9 := ringOf_inverse hring n hmemn
    exact ⟨h9.2, h9.1⟩
  · intro h v
    constructor <;> simp

/-- Witness for claim C7 at concrete states. -/
theorem claim7_witness :
    (∃ vs' : List Int, RepW (applyOp (Op.insert 3) (exEmpty.1, exEmpty.2)).1
      (applyOp (Op.insert 3) (exEmpty.1, exEmpty.2)).2 vs') ∧
    RepW (ListSt.appendList exB1.1 exA1.2 exB1.2).1
      (ListSt.appendList exB1.1 exA1.2 exB1.2).2.1 (([] ++ [1]) ++ [2]) ∧
    (exOne.1.nxt (exOne.1.prv exOne.2.header) = exOne.2.header ∧
     exOne.1.prv (exOne.1.nxt exOne.2.header) = exOne.2.header) := by
  refine ⟨?_, ?_, ?_⟩
  · exact claim7_ring_integrity.1 (Op.insert 3) exEmpty.1 exEmpty.2 ([] ++ [])
      (repC_repW exEmpty_repC)
  · exact (claim7_ring_integrity.2.1 exB1.1 exA1.2 exB1.2 ([] ++ [1]) [2]
      (repC₂_repW₂ exPair_repC₂)).1
  · exact claim7_ring_integrity.2.2.1 exOne.1 exOne.2 ([] ++ [7])
      (repC_repW exOne_repC) exOne.2.header ⟨0, rfl⟩

theorem repC_nil_win {α : Type} {h : Heap α} {s : ListSt} {b : List α}
    (hr : RepC h s [] b) : s.win = s.header ∧ s.index = 0 := by
  obtain ⟨ns1, ns2, hring, hlen, hL, hI, hW⟩ := hr
  have hns1 : ns1 = [] := List.length_eq_zero.1 (by simpa using hlen)
  subst hns1
  exact ⟨hW, by simpa using hI⟩

/-- Counterexample for claim C2 as stated: converting the one-element list
[7] leaves the cursor on the header with index 0 (and the header holds no
value), not on the last element (which would mean index = length = 1). -/
theorem claim2_counterexample :
    (list2vector exOne.1 exOne.2).1 = [7] ∧
    (list2vector exOne.1 exOne.2).2.2.length = 1 ∧
    (list2vector exOne.1 exOne.2).2.2.index = 0 ∧
    (list2vector exOne.1 exOne.2).2.2.win = exOne.2.header ∧
    exOne.1.val (list2vector exOne.1 exOne.2).2.2.win = none := by
  refine ⟨?_, ?_, ?_, ?_, ?_⟩ <;> decide

/-- Claim C2 (amended): list2vector returns the list's values in order as
a one-based array (entry i is the i-th value), does not change the list's
length and does not touch the heap; afterwards the cursor is parked at the
header with index 0 (after first() set index to 1 with the window on the
header, when the list was empty). -/
theorem claim2_list2vector (h : Heap Int) (s : ListSt) (a b : List Int)
    (hr : RepC h s a b) :
    (list2vector h s).1 = a ++ b ∧
    (list2vector h s).2.1 = h ∧
    (list2vector h s).2.2.length = s.length ∧
    (a ++ b ≠ [] → (list2vector h s).2.2.win = (list2vector h s).2.2.header ∧
      (list2vector h s).2.2.index = 0) ∧
    (a ++ b = [] → (list2vector h s).2.2.win = s.header ∧
      (list2vector h s).2.2.index = 1) := by
  have hn : s.length.toNat = (a ++ b).length := by
    rw [repC_length_eq hr]
    simp only [List.length_append]
    omega
  rcases List.eq_nil_or_concat (a ++ b) with hemp | ⟨m, y, hcc⟩
  · have hn0 : s.length.toNat = 0 := by rw [hn, hemp]; rfl
    have hrr : RepC h s ([] : List Int) [] := by
      have h1 : a = [] := by
        cases a with
        | nil => rfl
        | cons u r => simp at hemp
      have h2 : b = [] := by
        rw [h1] at hemp
        simpa using hemp
      rw [h1, h2] at hr
      exact hr
    have hf := first_spec_empty hrr
    have hred : list2vector h s
        = l2vLoop s.length.toNat (ListSt.first h s).2.1 (ListSt.first h s).2.2 := rfl
    rw [hred, hn0, hf]
    refine ⟨hemp.symm, rfl, ?_, ?_, ?_⟩
    · rfl
    · intro hne
      exact absurd hemp hne
    · intro _
      exact ⟨rfl, rfl⟩
  · rw [List.concat_eq_append] at hcc
    have hne : a ++ b ≠ [] := by
      rw [hcc]
      simp
    obtain ⟨d, rest, hvs⟩ := List.exists_cons_of_ne_nil hne
    have hf := first_spec hr hvs
    have hfrep : RepC h (ListSt.first h s).2.2 ([] ++ [d]) rest := by
      simpa using hf.2
    have hcnt : s.length.toNat = 1 + rest.length := by
      rw [hn, hvs]
      simp only [List.length_cons]
      omega
    have hloop := l2vLoop_spec rest [] d hfrep
    have hred : list2vector h s
        = l2vLoop s.length.toNat h (ListSt.first h s).2.2 := rfl
    rw [hred, hcnt]
    have hwin := repC_nil_win hloop.2.2
    refine ⟨?_, hloop.2.1, ?_, ?_, ?_⟩
    · rw [hloop.1, hvs]
    · rw [repC_length_eq hloop.2.2, repC_length_eq hr, hvs]
      simp only [List.nil_append, List.length_append, List.length_cons,
        List.length_nil]
      push_cast
      omega
    · intro _
      exact ⟨hwin.1, hwin.2⟩
    · intro hemp
      exact absurd hemp hne

/-- Witness for claim C2 on the one-element list [7]. -/
theorem claim2_witness :
    (list2vector exOne.1 exOne.2).1 = [] ++ [7] ∧
    (list2vector exOne.1 exOne.2).2.2.index = 0 := by
  have h9 := claim2_list2vector exOne.1 exOne.2 [] [7] exOne_repC
  exact ⟨h9.1, (h9.2.2.2.1 (by simp)).2⟩

/-- Claim C3: A.append(B) concatenates B's elements after A's (A's length
becomes the sum), and leaves B valid but empty: length 0, window on B's
own header, B's header a singleton ring; a subsequent insertion on B
yields a one-element list exactly as the same insertion on a freshly
constructed list does. -/
theorem claim3_append_list {α : Type} (h : Heap α) (sA sB : ListSt)
    (a b ws : List α) (hab : RepC₂ h sA a b sB ws) :
    RepC (ListSt.appendList h sA sB).1 (ListSt.appendList h sA sB).2.1 a (b ++ ws) ∧
    (ListSt.appendList h sA sB).2.1.length = sA.length + sB.length ∧
    (ListSt.appendList h sA sB).2.2.length = 0 ∧
    (ListSt.appendList h sA sB).2.2.win = sB.header ∧
    (ListSt.appendList h sA sB).1.nxt sB.header = sB.header ∧
    (ListSt.appendList h sA sB).1.prv sB.header = sB.header ∧
    (∀ v : α,
      RepW (ListSt.insert (ListSt.appendList h sA sB).1
          (ListSt.appendList h sA sB).2.2 v).1
        (ListSt.insert (ListSt.appendList h sA sB).1
          (ListSt.appendList h sA sB).2.2 v).2 [v] ∧
      RepW (ListSt.prepend (ListSt.appendList h sA sB).1
          (ListSt.appendList h sA sB).2.2 v).1
        (ListSt.prepend (ListSt.appendList h sA sB).1
          (ListSt.appendList h sA sB).2.2 v).2 [v] ∧
      RepW (ListSt.append (ListSt.appendList h sA sB).1
          (ListSt.appendList h sA sB).2.2 v).1
        (ListSt.append (ListSt.appendList h sA sB).1
          (ListSt.appendList h sA sB).2.2 v).2 [v]) ∧
    (∀ (g : Heap α) (v : α),
      RepW (ListSt.insert (mkList g).1 (mkList g).2 v).1
        (ListSt.insert (mkList g).1 (mkList g).2 v).2 [v] ∧
      RepW (ListSt.prepend (mkList g).1 (mkList g).2 v).1
        (ListSt.prepend (mkList g).1 (mkList g).2 v).2 [v] ∧
      RepW (ListSt.append (mkList g).1 (mkList g).2 v).1
        (ListSt.append (mkList g).1 (mkList g).2 v).2 [v]) := by
  have h9 := appendList_spec hab
  have hwin2 : (ListSt.appendList h sA sB).2.2.win
      = (ListSt.appendList h sA sB).2.2.header := by
    rw [h9.2.2.1, h9.2.2.2.2.2.2.2]
  refine ⟨h9.1, rfl, h9.2.1, h9.2.2.1, h9.2.2.2.2.1, h9.2.2.2.2.2.1, ?_, ?_⟩
  · intro v
    exact emptyState_insert_fresh h9.2.2.2.2.2.2.1 hwin2 v
  · intro g v
    have hm : RepW (mkList g).1 (mkList g).2 ([] : List α) := by
      have := repC_repW (mkList_repC g)
      simpa using this
    exact emptyState_insert_fresh hm rfl v

/-- Witness for claim C3 on A = [1], B = [2] in one heap. -/
theorem claim3_witness :
    RepC (ListSt.appendList exB1.1 exA1.2 exB1.2).1
      (ListSt.appendList exB1.1 exA1.2 exB1.2).2.1 [] ([1] ++ [2]) ∧
    (ListSt.appendList exB1.1 exA1.2 exB1.2).2.2.length = 0 ∧
    (ListSt.appendList exB1.1 exA1.2 exB1.2).2.2.win = exB1.2.header := by
  have h9 := claim3_append_list exB1.1 exA1.2 exB1.2 [] [1] [2] exPair_repC₂
  exact ⟨h9.1, h9.2.2.1, h9.2.2.2.1⟩

/-- Claim C5: GetAt(position) returns the absent value exactly when
position < 1 or position > length; on a valid position k it returns the
value stored at position k, sets index to k, leaves the window on the
element at position k, and agrees with the value reached by walking to
position k via first() and repeated next() from position 1. -/
theorem claim5_getAt {α : Type} (h : Heap α) (s : ListSt) (a b : List α)
    (hr : RepC h s a b) (p : Int) :
    ((ListSt.GetAt h s p).1 = none ↔ (p < 1 ∨ ((a ++ b).length : Int) < p)) ∧
    (1 ≤ p → p ≤ ((a ++ b).length : Int) →
      (ListSt.GetAt h s p).1 = (a ++ b)[p.toNat - 1]? ∧
      (ListSt.GetAt h s p).2.2.index = p ∧
      RepC (ListSt.GetAt h s p).2.1 (ListSt.GetAt h s p).2.2
        ((a ++ b).take p.toNat) ((a ++ b).drop p.toNat) ∧
      (ListSt.GetAt h s p).1 = ListSt.val
        (nextN (p.toNat - 1) ((ListSt.first h s).2.1, (ListSt.first h s).2.2)).1
        (nextN (p.toNat - 1) ((ListSt.first h s).2.1, (ListSt.first h s).2.2)).2) := by
  have hguard_tr : (p < 1 ∨ s.length < p) ↔ (p < 1 ∨ ((a ++ b).length : Int) < p) := by
    rw [repC_length_eq hr]
  constructor
  · constructor
    · intro hnone
      by_contra hnot
      push_neg at hnot
      have h1 : 1 ≤ p := by omega
      have h2 : p ≤ ((a ++ b).length : Int) := by omega
      have h9 := (getAt_spec hr p h1 h2).1
      rw [h9] at hnone
      rw [List.getElem?_eq_none_iff] at hnone
      omega
    · intro hor
      rw [getAt_oob h s p (hguard_tr.2 hor)]
  · intro h1 h2
    have hspec := getAt_spec hr p h1 h2
    have hidx : (ListSt.GetAt h s p).2.2.index = p := by
      rw [repC_index_eq hspec.2, List.length_take]
      have h3 : min p.toNat (a ++ b).length = p.toNat := by omega
      rw [h3]
      omega
    refine ⟨hspec.1, hidx, hspec.2, ?_⟩
    have hne : a ++ b ≠ [] := by
      intro hEq
      rw [hEq] at h2
      simp at h2
      omega
    obtain ⟨d, rest, hvs⟩ := List.exists_cons_of_ne_nil hne
    have hf := first_spec hr hvs
    have hfrep : RepC h (ListSt.first h s).2.2 [d] rest := hf.2
    have hNlen : (a ++ b).length = rest.length + 1 := by
      rw [hvs]
      simp
    have hkle : p.toNat - 1 ≤ rest.length := by omega
    have hnn := nextN_partial (p.toNat - 1) hkle hfrep
    have hlt : p.toNat - 1 < (a ++ b).length := by omega
    obtain ⟨v, hv⟩ : ∃ v, (a ++ b)[p.toNat - 1]? = some v :=
      ⟨(a ++ b)[p.toNat - 1], List.getElem?_eq_getElem hlt⟩
    have hp1 : p.toNat = (p.toNat - 1) + 1 := by omega
    have htake : [d] ++ rest.take (p.toNat - 1) = (a ++ b).take p.toNat := by
      rw [hvs, hp1, List.take_succ_cons]
      rfl
    have htake2 : (a ++ b).take p.toNat = (a ++ b).take (p.toNat - 1) ++ [v] := by
      rw [hp1, List.take_succ, hv]
      rfl
    have hrep2 : RepC h (nextN (p.toNat - 1) (h, (ListSt.first h s).2.2)).2
        ((a ++ b).take (p.toNat - 1) ++ [v]) (rest.drop (p.toNat - 1)) := by
      have h9 := hnn.2
      rw [htake, htake2] at h9
      exact h9
    have hval := repC_val_at hrep2
    rw [hspec.1, hv]
    rw [show (ListSt.first h s).2.1 = h from rfl]
    rw [hnn.1]
    exact hval.symm

/-- Witness for claim C5 at position 1 on the one-element list [7]. -/
theorem claim5_witness :
    (ListSt.GetAt exOne.1 exOne.2 1).1 = some 7 ∧
    (ListSt.GetAt exOne.1 exOne.2 1).2.2.index = 1 := by
  have h9 := (claim5_getAt exOne.1 exOne.2 [] [7] exOne_repC 1).2
    (by decide) (by decide)
  refine ⟨?_, h9.2.1⟩
  rw [h9.1]
  rfl

/-- Counterexample for claim C6 as stated: on the one-element list [7]
(n = 1), the (n+1)-th = second next() after first() does not land the
window on the header with index 0 — it lands back on the element with
index 1. -/
theorem claim6_counterexample :
    (nextN 2 ((ListSt.first exOne.1 exOne.2).2.1,
      (ListSt.first exOne.1 exOne.2).2.2)).2.index = 1 ∧
    (nextN 2 ((ListSt.first exOne.1 exOne.2).2.1,
      (ListSt.first exOne.1 exOne.2).2.2)).2.win ≠ exOne.2.header := by
  constructor <;> decide

/-- Claim C6 (amended): after first() on a list of n elements, the k-th
next() call (k < n) focuses position k + 1 and reads the value stored
there, so first() plus the first n - 1 next() calls visit exactly the n
elements in order; the n-th next() (not the (n+1)-th) lands the window on
the header with index reset to 0. -/
theorem claim6_first_then_next {α : Type} (h : Heap α) (s : ListSt)
    (a b : List α) (hr : RepC h s a b) :
    (∀ k : Nat, k < (a ++ b).length →
      (nextN k ((ListSt.first h s).2.1, (ListSt.first h s).2.2)).2.index
        = ((k + 1 : Nat) : Int) ∧
      ListSt.val (nextN k ((ListSt.first h s).2.1, (ListSt.first h s).2.2)).1
        (nextN k ((ListSt.first h s).2.1, (ListSt.first h s).2.2)).2
        = (a ++ b)[k]?) ∧
    ((a ++ b).length ≠ 0 →
      (nextN (a ++ b).length ((ListSt.first h s).2.1,
        (ListSt.first h s).2.2)).2.win
        = (nextN (a ++ b).length ((ListSt.first h s).2.1,
            (ListSt.first h s).2.2)).2.header ∧
      (nextN (a ++ b).length ((ListSt.first h s).2.1,
        (ListSt.first h s).2.2)).2.index = 0) := by
  rw [show (ListSt.first h s).2.1 = h from rfl]
  constructor
  · intro k hk
    have hne : a ++ b ≠ [] := by
      intro hEq
      rw [hEq] at hk
      simp at hk
    obtain ⟨d, rest, hvs⟩ := List.exists_cons_of_ne_nil hne
    have hf := first_spec hr hvs
    have hfrep : RepC h (ListSt.first h s).2.2 [d] rest := hf.2
    have hNlen : (a ++ b).length = rest.length + 1 := by
      rw [hvs]
      simp
    have hkle : k ≤ rest.length := by omega
    have hnn := nextN_partial k hkle hfrep
    obtain ⟨v, hv⟩ : ∃ v, (a ++ b)[k]? = some v :=
      ⟨(a ++ b)[k], List.getElem?_eq_getElem hk⟩
    have htake : [d] ++ rest.take k = (a ++ b).take (k + 1) := by
      rw [hvs, List.take_succ_cons]
      rfl
    have htake2 : (a ++ b).take (k + 1) = (a ++ b).take k ++ [v] := by
      rw [List.take_succ, hv]
      rfl
    have hrep2 : RepC h (nextN k (h, (ListSt.first h s).2.2)).2
        ((a ++ b).take k ++ [v]) (rest.drop k) := by
      have h9 := hnn.2
      rw [htake, htake2] at h9
      exact h9
    constructor
    · rw [repC_index_eq hrep2]
      rw [List.length_append, List.length_take]
      have h3 : min k (a ++ b).length = k := by omega
      rw [h3]
      simp
    · rw [hnn.1, hv]
      exact repC_val_at hrep2
  · intro hne0
    have hne : a ++ b ≠ [] := by
      intro hEq
      rw [hEq] at hne0
      simp at hne0
    obtain ⟨d, rest, hvs⟩ := List.exists_cons_of_ne_nil hne
    have hf := first_spec hr hvs
    have hfrep : RepC h (ListSt.first h s).2.2 [d] rest := hf.2
    have hNlen : (a ++ b).length = rest.length + 1 := by
      rw [hvs]
      simp
    have hnn := nextN_partial rest.length (le_refl _) hfrep
    have hfull : RepC h (nextN rest.length (h, (ListSt.first h s).2.2)).2
        ([d] ++ rest) [] := by
      have h9 := hnn.2
      rw [List.take_length, List.drop_length] at h9
      exact h9
    have hend := next_spec_end hfull
    have hcomp : nextN (a ++ b).length (h, (ListSt.first h s).2.2)
        = nextN 1 (nextN rest.length (h, (ListSt.first h s).2.2)) := by
      rw [hNlen]
      exact nextN_add rest.length 1 _
    rw [hcomp]
    rw [show (nextN 1 (nextN rest.length (h, (ListSt.first h s).2.2)))
        = (ListSt.next (nextN rest.length (h, (ListSt.first h s).2.2)).1
            (nextN rest.length (h, (ListSt.first h s).2.2)).2).2 from rfl]
    rw [hnn.1]
    have h9 := repC_nil_win hend.2
    exact ⟨h9.1, h9.2⟩

/-- Witness for claim C6 on the one-element list [7]. -/
theorem claim6_witness :
    (nextN 0 ((ListSt.first exOne.1 exOne.2).2.1,
      (ListSt.first exOne.1 exOne.2).2.2)).2.index = ((1 : Nat) : Int) ∧
    (nextN 1 ((ListSt.first exOne.1 exOne.2).2.1,
      (ListSt.first exOne.1 exOne.2).2.2)).2.index = 0 := by
  have h9 := claim6_first_then_next exOne.1 exOne.2 [] [7] exOne_repC
  exact ⟨(h9.1 0 (by decide)).1, (h9.2 (by decide)).2⟩
